import Mathlib

/-!
# Verification of the redisgl synchronization engine

Shallow embedding of the core of the redisgl web viewer and proofs about it:

* `Wire` — the binary wire decoder of `web/js/redis.js` (`parsePayload`,
  `parseMessage`) over byte lists, plus an encoder modelled from the spec
  (the producer is server-side and not part of the sources).
* `Sim` — the key-routing registry and entity lifecycle manager of
  `web/js/simulator.js` (`registerRedisUpdateCallback`,
  `unregisterRedisUpdateCallback`, `addComponentToScene`,
  `parseUpdateKeys`, `parseDeleteKeys`).
* `Cam` — the camera image pipeline and point-cloud reprojector of
  `web/js/camera.js` (`updateDepthImage`, `updateColorImage`,
  `renderPointCloud`).
* `Traj` — the trajectory ring buffer of `web/js/trajectory.js`
  (`appendPosition`).
* `Robot` — the kinematic updater of `web/js/robot.js` (`updateQ`).

JavaScript numbers are modelled with `Nat`/`ℚ`; where the behaviour of IEEE
special values (NaN, ±Infinity) is observable in the source, an explicit
extended-value type `Cam.FVal` is used.  JavaScript exceptions
(`RangeError` from out-of-range `DataView`/`Uint8Array` accesses, the
`TypeError` raised by the caller when `parsePayload` returns `undefined`)
are modelled with `Except`.
-/

namespace Wire

/-- Failure of `parseMessage`.  `malformedMessage` models the `RangeError`
thrown by an out-of-range `DataView`/`Uint8Array` construction or read;
`unsupportedPayloadType` models the `TypeError` that the caller raises when
`parsePayload` falls through both type-tag branches and returns
`undefined`. -/
inductive WireError where
  | malformedMessage
  | unsupportedPayloadType
deriving DecidableEq, Repr

/-- A decoded payload: type tag 1 is a text string (one byte per character,
modelled by its byte list, on which `String.fromCharCode` is injective),
type tag 2 is an opaque binary `ArrayBuffer`. -/
inductive PayloadValue where
  | text (bytes : List Nat)
  | binary (bytes : List Nat)
deriving DecidableEq, Repr

/-- The big-endian value of a byte list (how `DataView.getUint16`,
`getUint32` and `getBigUint64` combine bytes). -/
def beVal (bs : List Nat) : Nat := bs.foldl (fun a b => 256 * a + b) 0

/-- `new DataView(buffer, idx).getUint8()`: reads the byte at `idx`,
throwing a `RangeError` when `idx` is outside the buffer. -/
def getUint8 (b : List Nat) (idx : Nat) : Except WireError Nat :=
  match b.drop idx with
  | [] => .error .malformedMessage
  | x :: _ => .ok x

/-- `new DataView(buffer, idx).getUintNN()` for an `n`-byte big-endian read:
throws a `RangeError` unless all `n` bytes lie inside the buffer. -/
def getUintBE (b : List Nat) (idx n : Nat) : Except WireError Nat :=
  if idx + n ≤ b.length then .ok (beVal ((b.drop idx).take n)) else .error .malformedMessage

/-- `buffer.slice(idx, idx + len)`: `ArrayBuffer.slice` clamps to the buffer
bounds and never throws. -/
def bufferSlice (b : List Nat) (idx len : Nat) : List Nat :=
  (b.drop idx).take len

/-- The tail of `parsePayload` after the type tag and payload length have
been read: type tag 1 constructs a `Uint8Array` view (which throws a
`RangeError` when `idxData + lenPayload` exceeds the buffer) and decodes it
as text; type tag 2 takes `buffer.slice(idx, idx + lenPayload)`, which
clamps silently; any other tag returns `undefined`, which makes the caller
throw. -/
def parsePayloadData (b : List Nat) (idxData tag lenPayload : Nat) :
    Except WireError (Nat × PayloadValue) :=
  if tag = 1 then
    if idxData + lenPayload ≤ b.length then
      .ok (idxData + lenPayload, .text (bufferSlice b idxData lenPayload))
    else .error .malformedMessage
  else if tag = 2 then
    .ok (idxData + lenPayload, .binary (bufferSlice b idxData lenPayload))
  else .error .unsupportedPayloadType

/-- `parsePayload(buffer, idx)` of `redis.js`: reads a 1-byte type tag
(high bit masked off), then the three-tier length field (first byte < 126
literal; = 126 a 2-byte big-endian length; = 127 an 8-byte big-endian
length), then the payload bytes. -/
def parsePayload (b : List Nat) (idx : Nat) : Except WireError (Nat × PayloadValue) :=
  match getUint8 b idx with
  | .error e => .error e
  | .ok tagByte =>
    match getUint8 b (idx + 1) with
    | .error e => .error e
    | .ok len0 =>
      if len0 = 126 then
        match getUintBE b (idx + 2) 2 with
        | .error e => .error e
        | .ok l => parsePayloadData b (idx + 4) (tagByte % 128) l
      else if len0 = 127 then
        match getUintBE b (idx + 2) 8 with
        | .error e => .error e
        | .ok l => parsePayloadData b (idx + 10) (tagByte % 128) l
      else parsePayloadData b (idx + 2) (tagByte % 128) len0

/-- The string a JavaScript object coerces a property key to:
a decoded text payload is its own string; an `ArrayBuffer` used as a key
coerces to the fixed string `"[object ArrayBuffer]"`. -/
def objectKeyBytes : PayloadValue → List Nat
  | .text bs => bs
  | .binary _ => "[object ArrayBuffer]".toList.map Char.toNat

/-- `updateKeyVals[key] = val` on a JavaScript object, modelled as an
insertion-ordered association list: assigning to an existing key overwrites
in place, a new key is appended. -/
def objInsert {α : Type} (m : List (List Nat × α)) (k : List Nat) (v : α) :
    List (List Nat × α) :=
  if m.any (fun p => decide (p.1 = k)) then
    m.map (fun p => if p.1 = k then (k, v) else p)
  else m ++ [(k, v)]

/-- The first loop of `parseMessage`: parse `n` (key, value) payload pairs
starting at `idx`, accumulating them into the `updateKeyVals` object. -/
def parseEntries (b : List Nat) :
    Nat → Nat → List (List Nat × PayloadValue) →
    Except WireError (Nat × List (List Nat × PayloadValue))
  | idx, 0, acc => .ok (idx, acc)
  | idx, n + 1, acc =>
    match parsePayload b idx with
    | .error e => .error e
    | .ok (idxAfterKey, key) =>
      match parsePayload b idxAfterKey with
      | .error e => .error e
      | .ok (idxAfterVal, val) =>
        parseEntries b idxAfterVal n (objInsert acc (objectKeyBytes key) val)

/-- The second loop of `parseMessage`: parse `n` delete-key payloads
starting at `idx`, pushing each onto the `deleteKeys` array (no string
coercion happens on `push`). -/
def parseDeletes (b : List Nat) :
    Nat → Nat → List PayloadValue →
    Except WireError (Nat × List PayloadValue)
  | idx, 0, acc => .ok (idx, acc)
  | idx, n + 1, acc =>
    match parsePayload b idx with
    | .error e => .error e
    | .ok (idxAfterKey, key) =>
      parseDeletes b idxAfterKey n (acc ++ [key])

/-- The structured batch returned by `parseMessage`. -/
structure ParsedMessage where
  toUpdate : List (List Nat × PayloadValue)
  toDelete : List PayloadValue
deriving DecidableEq, Repr

/-- `parseMessage(buffer)` of `redis.js`: a 4-byte big-endian update count,
that many (key, value) payload pairs, a 4-byte big-endian delete count,
that many keys. -/
def parseMessage (b : List Nat) : Except WireError ParsedMessage :=
  match getUintBE b 0 4 with
  | .error e => .error e
  | .ok numUpdates =>
    match parseEntries b 4 numUpdates [] with
    | .error e => .error e
    | .ok (idxAfterUpdates, updateKeyVals) =>
      match getUintBE b idxAfterUpdates 4 with
      | .error e => .error e
      | .ok numDeletes =>
        match parseDeletes b (idxAfterUpdates + 4) numDeletes [] with
        | .error e => .error e
        | .ok (_, deleteKeys) => .ok ⟨updateKeyVals, deleteKeys⟩

/-- Modelled from the spec: the producer-side big-endian fixed-width
integer encoding (`k` bytes, most significant first).  The encoder itself
is server-side and not among the sources; only its byte layout is specified
(§4.1 of the spec). -/
def beBytes : Nat → Nat → List Nat
  | 0, _ => []
  | k + 1, n => beBytes k (n / 256) ++ [n % 256]

/-- The raw bytes of a payload. -/
def payloadBytes : PayloadValue → List Nat
  | .text bs => bs
  | .binary bs => bs

/-- The wire type tag of a payload (1 = text, 2 = binary). -/
def payloadTag : PayloadValue → Nat
  | .text _ => 1
  | .binary _ => 2

/-- Modelled from the spec: the three-tier length field of §4.1 — a length
below 126 is a literal byte, otherwise marker 126 with a 2-byte big-endian
length, otherwise marker 127 with an 8-byte big-endian length. -/
def encodeLength (n : Nat) : List Nat :=
  if n < 126 then [n]
  else if n < 2 ^ 16 then 126 :: beBytes 2 n
  else 127 :: beBytes 8 n

/-- Modelled from the spec: a self-describing payload — 1-byte type tag,
three-tier length field, then the raw bytes. -/
def encodePayload (v : PayloadValue) : List Nat :=
  payloadTag v :: (encodeLength (payloadBytes v).length ++ payloadBytes v)

/-- Modelled from the spec: the byte run of the update section — each entry
is a text key payload followed by its value payload. -/
def encodeEntries (ups : List (List Nat × PayloadValue)) : List Nat :=
  ups.flatMap (fun p => encodePayload (.text p.1) ++ encodePayload p.2)

/-- Modelled from the spec: the byte run of the delete section. -/
def encodeDeletes (dels : List PayloadValue) : List Nat :=
  dels.flatMap encodePayload

/-- Modelled from the spec: a whole wire message — 4-byte big-endian update
count, the update entries, 4-byte big-endian delete count, the delete
keys.  The encoder is not among the sources (server side); this definition
follows §4.1 of the spec verbatim and is the meaning of "valid wire
message". -/
def encodeMessage (ups : List (List Nat × PayloadValue)) (dels : List PayloadValue) :
    List Nat :=
  beBytes 4 ups.length ++ encodeEntries ups ++ beBytes 4 dels.length ++ encodeDeletes dels

/-! ### Arithmetic facts about the big-endian encodings -/

theorem beVal_append (l : List Nat) (x : Nat) :
    beVal (l ++ [x]) = 256 * beVal l + x := by
  simp [beVal]

theorem beBytes_length (k n : Nat) : (beBytes k n).length = k := by
  induction k generalizing n with
  | zero => rfl
  | succ k ih => simp [beBytes, ih]

theorem beVal_beBytes (k n : Nat) : beVal (beBytes k n) = n % 256 ^ k := by
  induction k generalizing n with
  | zero => simp [beBytes, beVal, Nat.mod_one]
  | succ k ih =>
    rw [beBytes, beVal_append, ih]
    have h : (256 : Nat) ^ (k + 1) = 256 * 256 ^ k := by ring
    rw [h, Nat.mod_mul]
    omega

theorem beVal_beBytes_of_lt {k n : Nat} (h : n < 256 ^ k) :
    beVal (beBytes k n) = n := by
  rw [beVal_beBytes, Nat.mod_eq_of_lt h]

/-! ### Frame lemmas: parsing a full payload embedded in a larger buffer -/

theorem getUint8_of_drop {b : List Nat} {idx x : Nat} {rest : List Nat}
    (h : b.drop idx = x :: rest) : getUint8 b idx = .ok x := by
  rw [getUint8, h]

theorem getUintBE_of_drop {b : List Nat} {idx n : Nat} {l rest : List Nat}
    (h : b.drop idx = l ++ rest) (hl : l.length = n) (hn : 0 < n) :
    getUintBE b idx n = .ok (beVal l) := by
  have hlen : b.length - idx = n + rest.length := by
    have := congrArg List.length h
    simpa [hl] using this
  have hidx : idx + n ≤ b.length := by omega
  rw [getUintBE, if_pos hidx, h, List.take_append_of_le_length (le_of_eq hl.symm),
    List.take_of_length_le (le_of_eq hl)]

theorem length_encodePayload (v : PayloadValue) :
    (encodePayload v).length =
      1 + (encodeLength (payloadBytes v).length).length + (payloadBytes v).length := by
  simp [encodePayload]; omega

/-- If the data bytes of a payload lie fully inside the buffer at `idxData`,
the tail of `parsePayload` succeeds and returns the payload. -/
theorem parsePayloadData_frame {b : List Nat} {idxData : Nat} {v : PayloadValue}
    {suf : List Nat}
    (hd : b.drop idxData = payloadBytes v ++ suf) (hle : idxData ≤ b.length) :
    parsePayloadData b idxData (payloadTag v) (payloadBytes v).length =
      .ok (idxData + (payloadBytes v).length, v) := by
  have hbl : b.length - idxData = (payloadBytes v).length + suf.length := by
    have := congrArg List.length hd
    simpa using this
  have hdatale : idxData + (payloadBytes v).length ≤ b.length := by omega
  have hslice : bufferSlice b idxData (payloadBytes v).length = payloadBytes v := by
    rw [bufferSlice, hd, List.take_left]
  cases v with
  | text bs =>
    simp only [payloadBytes] at hdatale hslice
    simp [parsePayloadData, payloadTag, payloadBytes, hdatale, hslice]
  | binary bs =>
    simp only [payloadBytes] at hslice
    simp [parsePayloadData, payloadTag, payloadBytes, hslice]

/-- Parsing a payload whose full encoding lies inside the buffer returns the
payload and the index just past its encoding. -/
theorem parsePayload_frame {b : List Nat} {idx : Nat} {v : PayloadValue} {suf : List Nat}
    (h : b.drop idx = encodePayload v ++ suf)
    (hlen : (payloadBytes v).length < 2 ^ 53) :
    parsePayload b idx = .ok (idx + (encodePayload v).length, v) := by
  have hidxle : idx ≤ b.length := by
    by_contra hgt
    have : b.drop idx = [] := by
      rw [List.drop_eq_nil_iff]; omega
    rw [this] at h
    cases v <;> simp [encodePayload] at h
  set L := (payloadBytes v).length with hL
  have henc : encodePayload v = payloadTag v :: (encodeLength L ++ payloadBytes v) := rfl
  rw [henc, List.cons_append] at h
  have h0 : getUint8 b idx = .ok (payloadTag v) := getUint8_of_drop h
  have hd1 : b.drop (idx + 1) = encodeLength L ++ (payloadBytes v ++ suf) := by
    have := congrArg (List.drop 1) h
    simpa [List.drop_drop, List.append_assoc] using this
  have htagmod : payloadTag v % 128 = payloadTag v := by
    cases v <;> simp [payloadTag]
  by_cases h126 : L < 126
  · have hlenc : encodeLength L = [L] := by rw [encodeLength, if_pos h126]
    rw [hlenc] at hd1
    have h1 : getUint8 b (idx + 1) = .ok L := getUint8_of_drop hd1
    have hd2 : b.drop (idx + 2) = payloadBytes v ++ suf := by
      have := congrArg (List.drop 1) hd1
      simpa [List.drop_drop] using this
    have hle2 : idx + 2 ≤ b.length := by
      have := congrArg List.length hd1
      simp at this
      omega
    have := parsePayloadData_frame hd2 hle2
    simp only [parsePayload, h0, h1, if_neg (by omega : L ≠ 126),
      if_neg (by omega : L ≠ 127), htagmod, ← hL, this]
    have : (encodePayload v).length = 2 + L := by
      rw [henc, hlenc]; simp; omega
    rw [this, Nat.add_assoc]
  · by_cases h16 : L < 2 ^ 16
    · have hlenc : encodeLength L = 126 :: beBytes 2 L := by
        rw [encodeLength, if_neg h126, if_pos h16]
      rw [hlenc, List.cons_append] at hd1
      have h1 : getUint8 b (idx + 1) = .ok 126 := getUint8_of_drop hd1
      have hd2 : b.drop (idx + 2) = beBytes 2 L ++ (payloadBytes v ++ suf) := by
        have := congrArg (List.drop 1) hd1
        simpa [List.drop_drop] using this
      have h2 : getUintBE b (idx + 2) 2 = .ok L := by
        have := getUintBE_of_drop hd2 (beBytes_length 2 L) (by omega)
        rwa [beVal_beBytes_of_lt (by simpa using h16)] at this
      have hd4 : b.drop (idx + 4) = payloadBytes v ++ suf := by
        have := congrArg (List.drop 2) hd2
        rw [List.drop_drop] at this
        rwa [List.drop_left' (beBytes_length 2 L)] at this
      have hle4 : idx + 4 ≤ b.length := by
        have := congrArg List.length hd2
        simp [beBytes_length] at this
        omega
      have := parsePayloadData_frame hd4 hle4
      simp only [parsePayload, h0, h1, if_pos rfl, if_true, h2, htagmod, ← hL, this]
      have : (encodePayload v).length = 4 + L := by
        rw [henc, hlenc]; simp [beBytes_length]; omega
      rw [this, Nat.add_assoc]
    · have hlenc : encodeLength L = 127 :: beBytes 8 L := by
        rw [encodeLength, if_neg h126, if_neg h16]
      rw [hlenc, List.cons_append] at hd1
      have h1 : getUint8 b (idx + 1) = .ok 127 := getUint8_of_drop hd1
      have hd2 : b.drop (idx + 2) = beBytes 8 L ++ (payloadBytes v ++ suf) := by
        have := congrArg (List.drop 1) hd1
        simpa [List.drop_drop] using this
      have h2 : getUintBE b (idx + 2) 8 = .ok L := by
        have := getUintBE_of_drop hd2 (beBytes_length 8 L) (by omega)
        rwa [beVal_beBytes_of_lt (by calc L < 2 ^ 53 := hlen
                                        _ ≤ 256 ^ 8 := by norm_num)] at this
      have hd10 : b.drop (idx + 10) = payloadBytes v ++ suf := by
        have := congrArg (List.drop 8) hd2
        rw [List.drop_drop] at this
        rwa [List.drop_left' (beBytes_length 8 L)] at this
      have hle10 : idx + 10 ≤ b.length := by
        have := congrArg List.length hd2
        simp [beBytes_length] at this
        omega
      have := parsePayloadData_frame hd10 hle10
      simp only [parsePayload, h0, h1, if_neg (by omega : (127 : Nat) ≠ 126),
        if_pos rfl, if_true, h2, htagmod, ← hL, this]
      have : (encodePayload v).length = 10 + L := by
        rw [henc, hlenc]; simp [beBytes_length]; omega
      rw [this, Nat.add_assoc]

/-! ### Round trip of a whole message -/

/-- The accumulated effect of the update loop's object assignments. -/
def insertAll (acc ups : List (List Nat × PayloadValue)) :
    List (List Nat × PayloadValue) :=
  ups.foldl (fun a p => objInsert a p.1 p.2) acc

theorem objInsert_of_not_mem {α : Type} {m : List (List Nat × α)} {k : List Nat} {v : α}
    (h : ∀ p ∈ m, p.1 ≠ k) : objInsert m k v = m ++ [(k, v)] := by
  rw [objInsert, if_neg]
  simp only [List.any_eq_true, decide_eq_true_eq, not_exists]
  intro p hp
  exact h p hp.1 hp.2

theorem insertAll_append (acc ups : List (List Nat × PayloadValue))
    (h : ∀ p ∈ ups, ∀ q ∈ acc, q.1 ≠ p.1)
    (hnd : (ups.map Prod.fst).Nodup) : insertAll acc ups = acc ++ ups := by
  induction ups generalizing acc with
  | nil => simp [insertAll]
  | cons p rest ih =>
    rw [insertAll, List.foldl_cons,
      objInsert_of_not_mem (fun q hq => h p (by simp) q hq)]
    simp only [List.map_cons, List.nodup_cons] at hnd
    have hacc : ∀ r ∈ rest, ∀ q ∈ acc ++ [(p.1, p.2)], q.1 ≠ r.1 := by
      intro r hr q hq
      rcases List.mem_append.mp hq with hq | hq
      · exact h r (by simp [hr]) q hq
      · simp only [List.mem_singleton] at hq
        subst hq
        intro hk
        exact hnd.1 (hk ▸ List.mem_map_of_mem Prod.fst hr)
    have := ih (acc ++ [(p.1, p.2)]) hacc hnd.2
    rw [insertAll] at this
    rw [this]
    simp

theorem parseEntries_frame (ups : List (List Nat × PayloadValue)) :
    ∀ {b : List Nat} {idx : Nat} {acc : List (List Nat × PayloadValue)} {suf : List Nat},
      b.drop idx = encodeEntries ups ++ suf →
      (∀ p ∈ ups, p.1.length < 2 ^ 53 ∧ (payloadBytes p.2).length < 2 ^ 53) →
      parseEntries b idx ups.length acc =
        .ok (idx + (encodeEntries ups).length, insertAll acc ups) := by
  induction ups with
  | nil =>
    intro b idx acc suf h _
    simp [parseEntries, encodeEntries, insertAll]
  | cons p rest ih =>
    intro b idx acc suf h hlen
    obtain ⟨k, v⟩ := p
    have hE : encodeEntries ((k, v) :: rest)
        = encodePayload (.text k) ++ (encodePayload v ++ encodeEntries rest) := by
      simp [encodeEntries, List.append_assoc]
    rw [hE, List.append_assoc] at h
    have hklen : (payloadBytes (PayloadValue.text k)).length < 2 ^ 53 :=
      (hlen (k, v) (by simp)).1
    have hkey := parsePayload_frame h hklen
    have hd2 : b.drop (idx + (encodePayload (.text k)).length)
        = encodePayload v ++ (encodeEntries rest ++ suf) := by
      have := congrArg (List.drop (encodePayload (.text k)).length) h
      rw [List.drop_drop, List.drop_left] at this
      simpa [List.append_assoc] using this
    have hvlen : (payloadBytes v).length < 2 ^ 53 := (hlen (k, v) (by simp)).2
    have hval := parsePayload_frame hd2 hvlen
    have hd3 : b.drop (idx + (encodePayload (.text k)).length + (encodePayload v).length)
        = encodeEntries rest ++ suf := by
      have := congrArg (List.drop (encodePayload v).length) hd2
      rw [List.drop_drop, List.drop_left] at this
      exact this
    have hrest : ∀ p ∈ rest, p.1.length < 2 ^ 53 ∧ (payloadBytes p.2).length < 2 ^ 53 :=
      fun p hp => hlen p (by simp [hp])
    simp only [List.length_cons, parseEntries, hkey, hval]
    rw [ih hd3 hrest]
    have hlenE : (encodeEntries ((k, v) :: rest)).length
        = (encodePayload (.text k)).length + (encodePayload v).length
          + (encodeEntries rest).length := by
      rw [hE]; simp; omega
    rw [hlenE]
    have hIns : insertAll (objInsert acc (objectKeyBytes (PayloadValue.text k)) v) rest
        = insertAll acc ((k, v) :: rest) := by
      simp [insertAll, objectKeyBytes]
    rw [hIns]
    exact congrArg Except.ok (by rw [Prod.mk.injEq]; exact ⟨by omega, rfl⟩)

theorem parseDeletes_frame (dels : List PayloadValue) :
    ∀ {b : List Nat} {idx : Nat} {acc : List PayloadValue} {suf : List Nat},
      b.drop idx = encodeDeletes dels ++ suf →
      (∀ v ∈ dels, (payloadBytes v).length < 2 ^ 53) →
      parseDeletes b idx dels.length acc =
        .ok (idx + (encodeDeletes dels).length, acc ++ dels) := by
  induction dels with
  | nil =>
    intro b idx acc suf h _
    simp [parseDeletes, encodeDeletes]
  | cons v rest ih =>
    intro b idx acc suf h hlen
    have hD : encodeDeletes (v :: rest) = encodePayload v ++ encodeDeletes rest := by
      simp [encodeDeletes]
    rw [hD, List.append_assoc] at h
    have hkey := parsePayload_frame h (hlen v (by simp))
    have hd2 : b.drop (idx + (encodePayload v).length)
        = encodeDeletes rest ++ suf := by
      have := congrArg (List.drop (encodePayload v).length) h
      rw [List.drop_drop, List.drop_left] at this
      exact this
    simp only [List.length_cons, parseDeletes, hkey]
    rw [ih hd2 (fun w hw => hlen w (by simp [hw]))]
    rw [hD]
    simp only [List.length_append]
    exact congrArg Except.ok (by rw [Prod.mk.injEq]; exact ⟨by omega, by simp⟩)

/-- C3 — "For every well-formed wire message — a 4-byte big-endian update
count, that many (key, value) payload pairs each with a 1-byte type tag
(high bit ignored; tag 1 = text, tag 2 = binary) and a three-tier length
field (first byte <126 literal, ==126 next 2 bytes big-endian, ==127 next 8
bytes big-endian), then a 4-byte big-endian delete count and that many keys
— decoding yields back exactly the encoded ordered key/value pairs and
delete key list (round-trip with the encoder)."  The encoder is modelled
from the spec (it is server-side, not in the sources); the hypotheses state
well-formedness: counts fit their 4-byte fields, payload lengths lie in the
safe unsigned range, and batch keys are unique. -/
theorem wire_roundtrip (ups : List (List Nat × PayloadValue)) (dels : List PayloadValue)
    (hU : ups.length < 2 ^ 32) (hD : dels.length < 2 ^ 32)
    (hlen : ∀ p ∈ ups, p.1.length < 2 ^ 53 ∧ (payloadBytes p.2).length < 2 ^ 53)
    (hdlen : ∀ v ∈ dels, (payloadBytes v).length < 2 ^ 53)
    (hnd : (ups.map Prod.fst).Nodup) :
    parseMessage (encodeMessage ups dels) = .ok ⟨ups, dels⟩ := by
  set B := encodeMessage ups dels with hBdef
  have h256 : (256 : Nat) ^ 4 = 2 ^ 32 := by norm_num
  have hB : B = beBytes 4 ups.length
      ++ (encodeEntries ups ++ (beBytes 4 dels.length ++ encodeDeletes dels)) := by
    rw [hBdef, encodeMessage]
    simp [List.append_assoc]
  have h1 : getUintBE B 0 4 = .ok ups.length := by
    have hdrop : B.drop 0 = beBytes 4 ups.length
        ++ (encodeEntries ups ++ (beBytes 4 dels.length ++ encodeDeletes dels)) := by
      rw [List.drop_zero]; exact hB
    have := getUintBE_of_drop hdrop (beBytes_length 4 _) (by omega)
    rwa [beVal_beBytes_of_lt (h256 ▸ hU)] at this
  have hd4 : B.drop 4
      = encodeEntries ups ++ (beBytes 4 dels.length ++ encodeDeletes dels) := by
    rw [hB, List.drop_left' (beBytes_length 4 _)]
  have h2 := @parseEntries_frame ups B 4 []
    (beBytes 4 dels.length ++ encodeDeletes dels) hd4 hlen
  have hins : insertAll [] ups = ups := by
    have := insertAll_append [] ups (by simp) hnd
    simpa using this
  rw [hins] at h2
  have hB2 : B = (beBytes 4 ups.length ++ encodeEntries ups)
      ++ (beBytes 4 dels.length ++ encodeDeletes dels) := by
    rw [hB]; simp [List.append_assoc]
  have hd5 : B.drop (4 + (encodeEntries ups).length)
      = beBytes 4 dels.length ++ encodeDeletes dels := by
    rw [hB2, List.drop_left']
    simp [beBytes_length]
  have h3 : getUintBE B (4 + (encodeEntries ups).length) 4 = .ok dels.length := by
    have := getUintBE_of_drop hd5 (beBytes_length 4 _) (by omega)
    rwa [beVal_beBytes_of_lt (h256 ▸ hD)] at this
  have hB3 : B = ((beBytes 4 ups.length ++ encodeEntries ups) ++ beBytes 4 dels.length)
      ++ encodeDeletes dels := by
    rw [hB]; simp [List.append_assoc]
  have hd6 : B.drop (4 + (encodeEntries ups).length + 4)
      = encodeDeletes dels ++ [] := by
    rw [hB3, List.append_nil, List.drop_left']
    simp [beBytes_length]
    omega
  have h4 := @parseDeletes_frame dels B (4 + (encodeEntries ups).length + 4) [] [] hd6 hdlen
  simp only [parseMessage, h1, h2, h3, h4]
  simp

/-- Witness for `wire_roundtrip` at a concrete batch: two updates (one text
value, one binary value) and one delete key. -/
theorem wire_roundtrip_witness :
    parseMessage (encodeMessage
        [([107], .text [104, 105]), ([108], .binary [1, 2, 3])]
        [.text [100]]) =
      .ok ⟨[([107], .text [104, 105]), ([108], .binary [1, 2, 3])], [.text [100]]⟩ :=
  wire_roundtrip _ _ (by decide) (by decide) (by decide) (by decide) (by decide)

/-! ### Decoding truncated buffers -/

theorem getUint8_take_err {b : List Nat} {t idx : Nat} (h : t ≤ idx) :
    getUint8 (b.take t) idx = .error .malformedMessage := by
  rw [getUint8]
  have hnil : (b.take t).drop idx = [] := by
    rw [List.drop_eq_nil_iff, List.length_take]
    omega
  rw [hnil]

theorem getUint8_take_eq {b : List Nat} {t idx : Nat} (h : idx < t) :
    getUint8 (b.take t) idx = getUint8 b idx := by
  rw [getUint8, getUint8, List.drop_take]
  cases hd : b.drop idx with
  | nil => simp
  | cons x rest =>
    have hsub : t - idx = (t - idx - 1) + 1 := by omega
    rw [hsub, List.take_succ_cons]

theorem getUintBE_take_err {b : List Nat} {t idx n : Nat} (ht : t ≤ b.length)
    (h : t < idx + n) : getUintBE (b.take t) idx n = .error .malformedMessage := by
  rw [getUintBE, if_neg]
  rw [List.length_take]
  omega

theorem getUintBE_take_eq {b : List Nat} {t idx n : Nat} (ht : t ≤ b.length)
    (h : idx + n ≤ t) : getUintBE (b.take t) idx n = getUintBE b idx n := by
  have htake : ((b.take t).drop idx).take n = (b.drop idx).take n := by
    rw [List.drop_take, List.take_take, Nat.min_eq_left (by omega)]
  rw [getUintBE, getUintBE, List.length_take, htake,
    if_pos (by omega : idx + n ≤ min t b.length), if_pos (by omega : idx + n ≤ b.length)]

theorem parsePayload_take_stuck {b : List Nat} {t idx : Nat} (h : t ≤ idx) :
    parsePayload (b.take t) idx = .error .malformedMessage := by
  simp only [parsePayload, getUint8_take_err h]

theorem parseEntries_take_stuck {b : List Nat} {t idx : Nat} (h : t ≤ idx)
    (n : Nat) (acc : List (List Nat × PayloadValue)) :
    parseEntries (b.take t) idx n acc = .error .malformedMessage ∨
      parseEntries (b.take t) idx n acc = .ok (idx, acc) := by
  cases n with
  | zero => right; rfl
  | succ n => left; simp only [parseEntries, parsePayload_take_stuck h]

/-- The payload tail on a truncated buffer when the declared data length
overruns the truncation point: a text payload fails its `Uint8Array` bounds
check, a binary payload is silently clamped by `slice` and succeeds with the
unclamped index. -/
theorem parsePayloadData_overrun {b : List Nat} {t idxData lenPayload tag : Nat}
    (ht : t ≤ b.length) (hover : t < idxData + lenPayload) (htag : tag = 1 ∨ tag = 2) :
    parsePayloadData (b.take t) idxData tag lenPayload = .error .malformedMessage ∨
      (tag = 2 ∧ parsePayloadData (b.take t) idxData tag lenPayload
        = .ok (idxData + lenPayload,
            .binary (bufferSlice (b.take t) idxData lenPayload))) := by
  rcases htag with h1 | h2
  · left
    rw [parsePayloadData, if_pos h1, if_neg]
    rw [List.length_take]
    omega
  · right
    refine ⟨h2, ?_⟩
    rw [parsePayloadData, if_neg (by omega), if_pos h2]

/-- Truncating a buffer strictly inside one payload's encoding: the parse of
that payload either fails with `MalformedMessage`, or (only for a binary
payload truncated in its data bytes) succeeds with a clamped value but an
index past the truncation point. -/
theorem parsePayload_take {b : List Nat} {idx : Nat} {v : PayloadValue}
    {suf : List Nat} {t : Nat}
    (h : b.drop idx = encodePayload v ++ suf)
    (hlen : (payloadBytes v).length < 2 ^ 53)
    (ht : t ≤ b.length)
    (hup : t < idx + (encodePayload v).length) :
    parsePayload (b.take t) idx = .error .malformedMessage ∨
      (payloadTag v = 2 ∧ ∃ bs, parsePayload (b.take t) idx
        = .ok (idx + (encodePayload v).length, .binary bs)) := by
  by_cases hstuck : t ≤ idx
  · left; exact parsePayload_take_stuck hstuck
  push_neg at hstuck
  set L := (payloadBytes v).length with hL
  have henc : encodePayload v = payloadTag v :: (encodeLength L ++ payloadBytes v) := rfl
  rw [henc, List.cons_append] at h
  have h0 : getUint8 (b.take t) idx = .ok (payloadTag v) := by
    rw [getUint8_take_eq hstuck]; exact getUint8_of_drop h
  have hd1 : b.drop (idx + 1) = encodeLength L ++ (payloadBytes v ++ suf) := by
    have := congrArg (List.drop 1) h
    simpa [List.drop_drop, List.append_assoc] using this
  have htagmod : payloadTag v % 128 = payloadTag v := by
    cases v <;> simp [payloadTag]
  have htag12 : payloadTag v = 1 ∨ payloadTag v = 2 := by
    cases v <;> simp [payloadTag]
  by_cases hlen0 : t ≤ idx + 1
  · left
    simp only [parsePayload, h0, getUint8_take_err hlen0]
  push_neg at hlen0
  by_cases h126 : L < 126
  · have hlenc : encodeLength L = [L] := by rw [encodeLength, if_pos h126]
    rw [hlenc] at hd1
    have h1 : getUint8 (b.take t) (idx + 1) = .ok L := by
      rw [getUint8_take_eq hlen0]; exact getUint8_of_drop hd1
    have hup' : t < idx + 2 + L := by
      rw [henc, hlenc] at hup; simp at hup; omega
    have := @parsePayloadData_overrun b t (idx + 2) L (payloadTag v) ht hup' htag12
    have hlenE : (encodePayload v).length = 2 + L := by rw [henc, hlenc]; simp; omega
    rcases this with herr | ⟨h2, hok⟩
    · left
      simp only [parsePayload, h0, h1, if_neg (by omega : L ≠ 126),
        if_neg (by omega : L ≠ 127), htagmod, herr]
    · right
      refine ⟨h2, bufferSlice (b.take t) (idx + 2) L, ?_⟩
      simp only [parsePayload, h0, h1, if_neg (by omega : L ≠ 126),
        if_neg (by omega : L ≠ 127), htagmod, hok, hlenE]
      rw [← Nat.add_assoc]
  · by_cases h16 : L < 2 ^ 16
    · have hlenc : encodeLength L = 126 :: beBytes 2 L := by
        rw [encodeLength, if_neg h126, if_pos h16]
      rw [hlenc, List.cons_append] at hd1
      have h1 : getUint8 (b.take t) (idx + 1) = .ok 126 := by
        rw [getUint8_take_eq hlen0]; exact getUint8_of_drop hd1
      have hd2 : b.drop (idx + 2) = beBytes 2 L ++ (payloadBytes v ++ suf) := by
        have := congrArg (List.drop 1) hd1
        simpa [List.drop_drop] using this
      have hlenE : (encodePayload v).length = 4 + L := by
        rw [henc, hlenc]; simp [beBytes_length]; omega
      by_cases hfield : t < idx + 4
      · left
        have herr2 : getUintBE (b.take t) (idx + 2) 2 = .error .malformedMessage :=
          getUintBE_take_err ht (by omega)
        simp only [parsePayload, h0, h1, if_pos rfl, if_true, herr2]
      push_neg at hfield
      have h2 : getUintBE (b.take t) (idx + 2) 2 = .ok L := by
        rw [getUintBE_take_eq ht (by omega)]
        have := getUintBE_of_drop hd2 (beBytes_length 2 L) (by omega)
        rwa [beVal_beBytes_of_lt (by simpa using h16)] at this
      have hup' : t < idx + 4 + L := by rw [hlenE] at hup; omega
      have := @parsePayloadData_overrun b t (idx + 4) L (payloadTag v) ht hup' htag12
      rcases this with herr | ⟨htag2, hok⟩
      · left
        simp only [parsePayload, h0, h1, if_pos rfl, if_true, htagmod, h2, herr]
      · right
        refine ⟨htag2, bufferSlice (b.take t) (idx + 4) L, ?_⟩
        simp only [parsePayload, h0, h1, if_pos rfl, if_true, htagmod, h2, hok, hlenE]
        rw [← Nat.add_assoc]
    · have hlenc : encodeLength L = 127 :: beBytes 8 L := by
        rw [encodeLength, if_neg h126, if_neg h16]
      rw [hlenc, List.cons_append] at hd1
      have h1 : getUint8 (b.take t) (idx + 1) = .ok 127 := by
        rw [getUint8_take_eq hlen0]; exact getUint8_of_drop hd1
      have hd2 : b.drop (idx + 2) = beBytes 8 L ++ (payloadBytes v ++ suf) := by
        have := congrArg (List.drop 1) hd1
        simpa [List.drop_drop] using this
      have hlenE : (encodePayload v).length = 10 + L := by
        rw [henc, hlenc]; simp [beBytes_length]; omega
      by_cases hfield : t < idx + 10
      · left
        have herr2 : getUintBE (b.take t) (idx + 2) 8 = .error .malformedMessage :=
          getUintBE_take_err ht (by omega)
        simp only [parsePayload, h0, h1, if_neg (by omega : (127 : Nat) ≠ 126),
          if_pos rfl, if_true, herr2]
      push_neg at hfield
      have h2 : getUintBE (b.take t) (idx + 2) 8 = .ok L := by
        rw [getUintBE_take_eq ht (by omega)]
        have := getUintBE_of_drop hd2 (beBytes_length 8 L) (by omega)
        rwa [beVal_beBytes_of_lt (by calc L < 2 ^ 53 := hlen
                                        _ ≤ 256 ^ 8 := by norm_num)] at this
      have hup' : t < idx + 10 + L := by rw [hlenE] at hup; omega
      have := @parsePayloadData_overrun b t (idx + 10) L (payloadTag v) ht hup' htag12
      rcases this with herr | ⟨htag2, hok⟩
      · left
        simp only [parsePayload, h0, h1, if_neg (by omega : (127 : Nat) ≠ 126),
          if_pos rfl, if_true, htagmod, h2, herr]
      · right
        refine ⟨htag2, bufferSlice (b.take t) (idx + 10) L, ?_⟩
        simp only [parsePayload, h0, h1, if_neg (by omega : (127 : Nat) ≠ 126),
          if_pos rfl, if_true, htagmod, h2, hok, hlenE]
        rw [← Nat.add_assoc]

/-- A fully contained payload still parses on the truncated buffer. -/
theorem parsePayload_take_frame {b : List Nat} {idx : Nat} {v : PayloadValue}
    {suf : List Nat} {t : Nat}
    (h : b.drop idx = encodePayload v ++ suf)
    (hlen : (payloadBytes v).length < 2 ^ 53)
    (hin : idx + (encodePayload v).length ≤ t) :
    parsePayload (b.take t) idx = .ok (idx + (encodePayload v).length, v) := by
  have hdrop : (b.take t).drop idx
      = encodePayload v ++ suf.take (t - idx - (encodePayload v).length) := by
    rw [List.drop_take, h]
    have hsplit : t - idx
        = (encodePayload v).length + (t - idx - (encodePayload v).length) := by
      omega
    rw [hsplit, List.take_append]
    simp
  exact parsePayload_frame hdrop hlen

theorem drop_take_of_le {b : List Nat} {idx t : Nat} {l suf : List Nat}
    (h : b.drop idx = l ++ suf) (hin : idx + l.length ≤ t) :
    (b.take t).drop idx = l ++ suf.take (t - idx - l.length) := by
  rw [List.drop_take, h]
  have hsplit : t - idx = l.length + (t - idx - l.length) := by omega
  rw [hsplit, List.take_append]
  simp

/-- Truncating anywhere inside the update-entry section: the update loop
either fails with `MalformedMessage`, or — when the truncation point lies in
the data bytes of a clamped binary payload — returns with an index past the
truncation point (so that the next fixed read fails). -/
theorem parseEntries_take (ups : List (List Nat × PayloadValue)) :
    ∀ {b : List Nat} {idx : Nat} {acc : List (List Nat × PayloadValue)} {suf : List Nat}
      {t : Nat},
      b.drop idx = encodeEntries ups ++ suf →
      (∀ p ∈ ups, p.1.length < 2 ^ 53 ∧ (payloadBytes p.2).length < 2 ^ 53) →
      t ≤ b.length → idx ≤ t → t < idx + (encodeEntries ups).length →
      parseEntries (b.take t) idx ups.length acc = .error .malformedMessage ∨
        ∃ q, parseEntries (b.take t) idx ups.length acc = .ok q ∧ t < q.1 := by
  induction ups with
  | nil =>
    intro b idx acc suf t _ _ _ hle hup
    exfalso
    simp [encodeEntries] at hup
    omega
  | cons p rest ih =>
    intro b idx acc suf t h hlen ht hle hup
    obtain ⟨k, v⟩ := p
    have hE : encodeEntries ((k, v) :: rest)
        = encodePayload (.text k) ++ (encodePayload v ++ encodeEntries rest) := by
      simp [encodeEntries, List.append_assoc]
    rw [hE, List.append_assoc] at h
    have hklen : (payloadBytes (PayloadValue.text k)).length < 2 ^ 53 :=
      (hlen (k, v) (by simp)).1
    have hvlen : (payloadBytes v).length < 2 ^ 53 := (hlen (k, v) (by simp)).2
    have hlentot : (encodeEntries ((k, v) :: rest)).length
        = (encodePayload (PayloadValue.text k)).length
          + ((encodePayload v).length + (encodeEntries rest).length) := by
      rw [hE]; simp
    by_cases hc1 : t < idx + (encodePayload (PayloadValue.text k)).length
    · have hkey := parsePayload_take h hklen ht hc1
      rcases hkey with herr | ⟨_, bs, hok⟩
      · left
        simp only [List.length_cons, parseEntries, herr]
      · have hverr : parsePayload (b.take t)
            (idx + (encodePayload (PayloadValue.text k)).length)
            = .error .malformedMessage := parsePayload_take_stuck (by omega)
        left
        simp only [List.length_cons, parseEntries, hok, hverr]
    · push_neg at hc1
      have hkeyfull := parsePayload_take_frame h hklen hc1
      have hd2 : b.drop (idx + (encodePayload (PayloadValue.text k)).length)
          = encodePayload v ++ (encodeEntries rest ++ suf) := by
        have := congrArg (List.drop (encodePayload (PayloadValue.text k)).length) h
        rw [List.drop_drop, List.drop_left] at this
        simpa [List.append_assoc] using this
      by_cases hc2 : t < idx + (encodePayload (PayloadValue.text k)).length
          + (encodePayload v).length
      · have hval := parsePayload_take hd2 hvlen ht
          (show t < idx + (encodePayload (PayloadValue.text k)).length
            + (encodePayload v).length from hc2)
        rcases hval with herr | ⟨_, bs, hok⟩
        · left
          simp only [List.length_cons, parseEntries, hkeyfull, herr]
        · have hstuck := @parseEntries_take_stuck b t
            (idx + (encodePayload (PayloadValue.text k)).length + (encodePayload v).length)
            (by omega) rest.length
            (objInsert acc (objectKeyBytes (PayloadValue.text k)) (PayloadValue.binary bs))
          rcases hstuck with hrec | hrec
          · left
            simp only [List.length_cons, parseEntries, hkeyfull, hok, hrec]
          · right
            refine ⟨(idx + (encodePayload (PayloadValue.text k)).length
              + (encodePayload v).length,
              objInsert acc (objectKeyBytes (PayloadValue.text k)) (PayloadValue.binary bs)),
              ?_, by omega⟩
            simp only [List.length_cons, parseEntries, hkeyfull, hok, hrec]
      · push_neg at hc2
        have hvalfull := parsePayload_take_frame hd2 hvlen
          (show idx + (encodePayload (PayloadValue.text k)).length
            + (encodePayload v).length ≤ t from hc2)
        have hd3 : b.drop (idx + (encodePayload (PayloadValue.text k)).length
            + (encodePayload v).length) = encodeEntries rest ++ suf := by
          have := congrArg (List.drop (encodePayload v).length) hd2
          rw [List.drop_drop, List.drop_left] at this
          exact this
        have hrest : ∀ p ∈ rest,
            p.1.length < 2 ^ 53 ∧ (payloadBytes p.2).length < 2 ^ 53 :=
          fun p hp => hlen p (by simp [hp])
        have hup' : t < idx + (encodePayload (PayloadValue.text k)).length
            + (encodePayload v).length + (encodeEntries rest).length := by
          rw [hlentot] at hup; omega
        have := @ih b
          (idx + (encodePayload (PayloadValue.text k)).length + (encodePayload v).length)
          (objInsert acc (objectKeyBytes (PayloadValue.text k)) v) suf t
          hd3 hrest ht (by omega) hup'
        rcases this with herr | ⟨q, hok, hq⟩
        · left
          simp only [List.length_cons, parseEntries, hkeyfull, hvalfull, herr]
        · right
          exact ⟨q,
            by simp only [List.length_cons, parseEntries, hkeyfull, hvalfull]; exact hok, hq⟩

theorem parseDeletes_take_stuck {b : List Nat} {t idx : Nat} (h : t ≤ idx)
    (n : Nat) (acc : List PayloadValue) :
    parseDeletes (b.take t) idx n acc = .error .malformedMessage ∨
      parseDeletes (b.take t) idx n acc = .ok (idx, acc) := by
  cases n with
  | zero => right; rfl
  | succ n => left; simp only [parseDeletes, parsePayload_take_stuck h]

/-- Truncating anywhere inside the delete-key section fails with
`MalformedMessage` as long as every delete key is a text payload (a binary
delete key would be clamped silently). -/
theorem parseDeletes_take (dels : List PayloadValue) :
    ∀ {b : List Nat} {idx : Nat} {acc : List PayloadValue} {suf : List Nat} {t : Nat},
      b.drop idx = encodeDeletes dels ++ suf →
      (∀ v ∈ dels, (payloadBytes v).length < 2 ^ 53) →
      (∀ v ∈ dels, payloadTag v = 1) →
      t ≤ b.length → idx ≤ t → t < idx + (encodeDeletes dels).length →
      parseDeletes (b.take t) idx dels.length acc = .error .malformedMessage := by
  induction dels with
  | nil =>
    intro b idx acc suf t _ _ _ _ hle hup
    exfalso
    simp [encodeDeletes] at hup
    omega
  | cons v rest ih =>
    intro b idx acc suf t h hlen htext ht hle hup
    have hD : encodeDeletes (v :: rest) = encodePayload v ++ encodeDeletes rest := by
      simp [encodeDeletes]
    rw [hD, List.append_assoc] at h
    have hvlen := hlen v (by simp)
    by_cases hc1 : t < idx + (encodePayload v).length
    · have hkey := parsePayload_take h hvlen ht hc1
      rcases hkey with herr | ⟨htag2, _, _⟩
      · simp only [List.length_cons, parseDeletes, herr]
      · exfalso
        have h1 := htext v (by simp)
        rw [h1] at htag2
        exact absurd htag2 (by omega)
    · push_neg at hc1
      have hkeyfull := parsePayload_take_frame h hvlen hc1
      have hd2 : b.drop (idx + (encodePayload v).length) = encodeDeletes rest ++ suf := by
        have := congrArg (List.drop (encodePayload v).length) h
        rw [List.drop_drop, List.drop_left] at this
        exact this
      have hup' : t < idx + (encodePayload v).length + (encodeDeletes rest).length := by
        rw [hD] at hup; simp at hup; omega
      have := @ih b (idx + (encodePayload v).length) (acc ++ [v]) suf t
        hd2 (fun w hw => hlen w (by simp [hw]))
        (fun w hw => htext w (by simp [hw])) ht (by omega) hup'
      simp only [List.length_cons, parseDeletes, hkeyfull, this]

theorem encodeMessage_length (ups : List (List Nat × PayloadValue))
    (dels : List PayloadValue) :
    (encodeMessage ups dels).length
      = 4 + (encodeEntries ups).length + 4 + (encodeDeletes dels).length := by
  simp [encodeMessage, beBytes_length]
  omega

/-- C2 counterexample — a valid message whose single delete key is a binary
payload, truncated one byte short: `parseMessage` SUCCEEDS, silently
returning the clamped key, instead of failing with `MalformedMessage`. -/
theorem wire_truncation_counterexample :
    parseMessage (encodeMessage [] [.binary [97, 98, 99]]) =
        .ok ⟨[], [.binary [97, 98, 99]]⟩ ∧
      12 < (encodeMessage [] [.binary [97, 98, 99]]).length ∧
      parseMessage ((encodeMessage [] [.binary [97, 98, 99]]).take 12) =
        .ok ⟨[], [.binary [97, 98]]⟩ :=
  ⟨by rfl, by decide, by rfl⟩

/-- C2 (amended) — "For every byte buffer that is a valid wire message
truncated at any byte boundary, and for every payload whose declared length
would read past the buffer end, the wire decoder fails with
`MalformedMessage` without reading out of bounds and without partial
effects, rather than silently truncating — PROVIDED every delete key is a
text payload; a binary delete key whose data bytes are cut is silently
clamped by `ArrayBuffer.slice` instead (see the counterexample)."  The
decoder returns an `Except` value, so a failing decode has no partial
effects; out-of-bounds reads appear only as the modelled `RangeError`. -/
theorem wire_truncation_fails (ups : List (List Nat × PayloadValue))
    (dels : List PayloadValue)
    (hU : ups.length < 2 ^ 32) (hD : dels.length < 2 ^ 32)
    (hlen : ∀ p ∈ ups, p.1.length < 2 ^ 53 ∧ (payloadBytes p.2).length < 2 ^ 53)
    (hdlen : ∀ v ∈ dels, (payloadBytes v).length < 2 ^ 53)
    (htext : ∀ v ∈ dels, payloadTag v = 1)
    (t : Nat) (ht : t < (encodeMessage ups dels).length) :
    parseMessage ((encodeMessage ups dels).take t) = .error .malformedMessage := by
  set B := encodeMessage ups dels with hBdef
  have h256 : (256 : Nat) ^ 4 = 2 ^ 32 := by norm_num
  have hB : B = beBytes 4 ups.length
      ++ (encodeEntries ups ++ (beBytes 4 dels.length ++ encodeDeletes dels)) := by
    rw [hBdef, encodeMessage]
    simp [List.append_assoc]
  have hlenB : B.length
      = 4 + (encodeEntries ups).length + 4 + (encodeDeletes dels).length :=
    encodeMessage_length ups dels
  have htle : t ≤ B.length := le_of_lt ht
  have hd4 : B.drop 4
      = encodeEntries ups ++ (beBytes 4 dels.length ++ encodeDeletes dels) := by
    rw [hB, List.drop_left' (beBytes_length 4 _)]
  by_cases r1 : t < 4
  · have herr : getUintBE (B.take t) 0 4 = .error .malformedMessage :=
      getUintBE_take_err htle (by omega)
    simp only [parseMessage, herr]
  · push_neg at r1
    have h1 : getUintBE (B.take t) 0 4 = .ok ups.length := by
      rw [getUintBE_take_eq htle (by omega)]
      have hdrop : B.drop 0 = beBytes 4 ups.length
          ++ (encodeEntries ups ++ (beBytes 4 dels.length ++ encodeDeletes dels)) := by
        rw [List.drop_zero]; exact hB
      have := getUintBE_of_drop hdrop (beBytes_length 4 _) (by omega)
      rwa [beVal_beBytes_of_lt (h256 ▸ hU)] at this
    by_cases r2 : t < 4 + (encodeEntries ups).length
    · have := @parseEntries_take ups B 4 []
        (beBytes 4 dels.length ++ encodeDeletes dels) t hd4 hlen htle
        (by omega) (by omega)
      rcases this with herr | ⟨q, hok, hq⟩
      · simp only [parseMessage, h1, herr]
      · have herr2 : getUintBE (B.take t) q.1 4 = .error .malformedMessage :=
          getUintBE_take_err htle (by omega)
        simp only [parseMessage, h1, hok, herr2]
    · push_neg at r2
      have hdropE := @drop_take_of_le B 4 t (encodeEntries ups)
        (beBytes 4 dels.length ++ encodeDeletes dels) hd4 (by omega)
      have h2 := @parseEntries_frame ups (B.take t) 4 []
        ((beBytes 4 dels.length ++ encodeDeletes dels).take
          (t - 4 - (encodeEntries ups).length)) hdropE hlen
      by_cases r3 : t < 4 + (encodeEntries ups).length + 4
      · have herr2 : getUintBE (B.take t) (4 + (encodeEntries ups).length) 4
            = .error .malformedMessage := getUintBE_take_err htle (by omega)
        simp only [parseMessage, h1, h2, herr2]
      · push_neg at r3
        have hB2 : B = (beBytes 4 ups.length ++ encodeEntries ups)
            ++ (beBytes 4 dels.length ++ encodeDeletes dels) := by
          rw [hB]; simp [List.append_assoc]
        have hd5 : B.drop (4 + (encodeEntries ups).length)
            = beBytes 4 dels.length ++ encodeDeletes dels := by
          rw [hB2, List.drop_left']
          simp [beBytes_length]
        have h3 : getUintBE (B.take t) (4 + (encodeEntries ups).length) 4
            = .ok dels.length := by
          rw [getUintBE_take_eq htle (by omega)]
          have := getUintBE_of_drop hd5 (beBytes_length 4 _) (by omega)
          rwa [beVal_beBytes_of_lt (h256 ▸ hD)] at this
        have hB3 : B = ((beBytes 4 ups.length ++ encodeEntries ups)
            ++ beBytes 4 dels.length) ++ encodeDeletes dels := by
          rw [hB]; simp [List.append_assoc]
        have hd6 : B.drop (4 + (encodeEntries ups).length + 4)
            = encodeDeletes dels ++ [] := by
          rw [hB3, List.append_nil, List.drop_left']
          simp [beBytes_length]
          omega
        have h4 := @parseDeletes_take dels B
          (4 + (encodeEntries ups).length + 4) [] [] t
          hd6 hdlen htext htle (by omega) (by omega)
        simp only [parseMessage, h1, h2, h3, h4]

/-- Witness for `wire_truncation_fails`: one text update and one text
delete key, truncated in the middle of the update section. -/
theorem wire_truncation_fails_witness :
    parseMessage ((encodeMessage [([107], .text [104])] [.text [100]]).take 9) =
      .error .malformedMessage :=
  wire_truncation_fails [([107], .text [104])] [.text [100]]
    (by decide) (by decide) (by decide) (by decide) (by decide) 9 (by decide)

end Wire

namespace Sim

/-- A registered update handler, abstracted to what the lifecycle claims
observe: the identity of the scene object the closure captured when the
binding was registered (`comp`), and the boolean it returns for the
dispatched value (`ret`).  In the source, `Robot.updateQ`,
`updatePosition`, `updateOrientation`, … return `true`;
`Camera.updateDepthImage`/`updateColorImage` always return `false`;
`Trajectory.appendPosition` returns `undefined` (falsy). -/
structure HandlerB where
  comp : Nat
  ret : Bool
deriving DecidableEq, Repr

/-- `m[k]` on a JavaScript object modelled as an insertion-ordered
association list. -/
def dictGet? {α : Type} (m : List (String × α)) (k : String) : Option α :=
  (m.find? (fun p => p.1 == k)).map (fun p => p.2)

/-- `k in m`. -/
def dictHas {α : Type} (m : List (String × α)) (k : String) : Bool :=
  m.any (fun p => p.1 == k)

/-- `m[k] = v`: overwrite in place, or append a new key. -/
def dictInsert {α : Type} (m : List (String × α)) (k : String) (v : α) :
    List (String × α) :=
  if dictHas m k then m.map (fun p => if p.1 == k then (k, v) else p)
  else m ++ [(k, v)]

/-- `delete m[k]`. -/
def dictDelete {α : Type} (m : List (String × α)) (k : String) :
    List (String × α) :=
  m.filter (fun p => p.1 != k)

/-- The mutable state of `simulator.js` that the lifecycle claims are
about: the four per-kind component registries (`robots`, `objects`,
`cameras`, `trajectories`, each mapping an external key to the identity of
its THREE.js object), the scene contents, the
`redisUpdateCallbacks[key][keyComponent]` binding table, and a fresh-object
counter standing for JavaScript heap allocation. -/
structure SimState where
  robots : List (String × Nat)
  objects : List (String × Nat)
  cameras : List (String × Nat)
  trajectories : List (String × Nat)
  scene : List Nat
  redisUpdateCallbacks : List (String × List (String × HandlerB))
  nextId : Nat
deriving DecidableEq, Repr

def emptySim : SimState := ⟨[], [], [], [], [], [], 0⟩

/-- `registerRedisUpdateCallback(key, keyComponent, component, updateCallback)`:
an empty key means "no binding"; otherwise the handler is stored at
`redisUpdateCallbacks[key][keyComponent]`, overwriting any previous handler
for the same pair.  (When an HTML form for `key` already exists the new
callback is additionally invoked once; that invocation does not change the
registry and is not modelled.) -/
def registerRedisUpdateCallback (st : SimState) (key keyComponent : String)
    (h : HandlerB) : SimState :=
  if key = "" then st
  else
    let inner := dictInsert ((dictGet? st.redisUpdateCallbacks key).getD []) keyComponent h
    { st with redisUpdateCallbacks := dictInsert st.redisUpdateCallbacks key inner }

/-- `unregisterRedisUpdateCallback(keyComponent)`: delete the component's
entry from every key's handler map. -/
def unregisterRedisUpdateCallback (st : SimState) (keyComponent : String) :
    SimState :=
  { st with redisUpdateCallbacks :=
      st.redisUpdateCallbacks.map (fun p => (p.1, dictDelete p.2 keyComponent)) }

/-- `addComponentToScene(Component, components, key, model, callback)`
restricted to one component registry: create the new component; if the key
is already present, remove the old component from the scene and delete its
registry entry; then install the new component and add it to the scene.
Note that no binding is unregistered here.  Returns the updated registry
and scene. -/
def addComponentToScene (reg : List (String × Nat)) (scene : List Nat)
    (key : String) (newId : Nat) : List (String × Nat) × List Nat :=
  match dictGet? reg key with
  | some oldId =>
    (dictInsert (dictDelete reg key) key newId,
      (scene.filter (fun i => i ≠ oldId)) ++ [newId])
  | none => (dictInsert reg key newId, scene ++ [newId])

/-- The update keys a robot model record declares. -/
structure RobotModel where
  key_q : String
  key_pos : String
  key_ori : String
deriving DecidableEq, Repr

/-- `parseRobotModel(key, val)` after the namespace check and JSON parse:
install the robot via `addComponentToScene` and register its bindings
(`key_q`, `key_pos`, `key_ori`); all three handlers return `true` and
close over the newly created robot object. -/
def parseRobotModelStep (st : SimState) (key : String) (m : RobotModel) :
    SimState :=
  let id := st.nextId
  let rs := addComponentToScene st.robots st.scene key id
  let st1 := { st with robots := rs.1, scene := rs.2, nextId := id + 1 }
  let st2 := registerRedisUpdateCallback st1 m.key_q key ⟨id, true⟩
  let st3 := registerRedisUpdateCallback st2 m.key_pos key ⟨id, true⟩
  registerRedisUpdateCallback st3 m.key_ori key ⟨id, true⟩

/-- The update keys a camera model record declares. -/
structure CameraModel where
  key_pos : String
  key_ori : String
  key_intrinsic : String
  key_depth_image : String
  key_color_image : String
deriving DecidableEq, Repr

/-- `parseCameraModel(key, val)` after the namespace check and JSON parse:
install the camera and register its five bindings.  `updatePosition` and
`updateOrientation` return `true`; `updateIntrinsic` returns a
data-dependent boolean, abstracted as the parameter `rIntr`; the two image
handlers always return `false`. -/
def parseCameraModelStep (st : SimState) (key : String) (m : CameraModel)
    (rIntr : Bool) : SimState :=
  let id := st.nextId
  let rs := addComponentToScene st.cameras st.scene key id
  let st1 := { st with cameras := rs.1, scene := rs.2, nextId := id + 1 }
  let st2 := registerRedisUpdateCallback st1 m.key_pos key ⟨id, true⟩
  let st3 := registerRedisUpdateCallback st2 m.key_ori key ⟨id, true⟩
  let st4 := registerRedisUpdateCallback st3 m.key_intrinsic key ⟨id, rIntr⟩
  let st5 := registerRedisUpdateCallback st4 m.key_depth_image key ⟨id, false⟩
  registerRedisUpdateCallback st5 m.key_color_image key ⟨id, false⟩

/-- `parseDeleteKeys(keys)` of `simulator.js`: only the `robots` and
`objects` registries are consulted.  A matching entity is removed from the
scene and its registry, its bindings are unregistered, and the render flag
is set.  Keys of cameras, trajectories, or unknown keys fall through (the
source only deletes the HTML form, which is outside this model). -/
def parseDeleteKeyStep (acc : SimState × Bool) (key : String) : SimState × Bool :=
  match dictGet? acc.1.robots key with
  | some oldId =>
    (unregisterRedisUpdateCallback
      { acc.1 with robots := dictDelete acc.1.robots key,
                   scene := acc.1.scene.filter (fun i => i ≠ oldId) } key, true)
  | none =>
    match dictGet? acc.1.objects key with
    | some oldId =>
      (unregisterRedisUpdateCallback
        { acc.1 with objects := dictDelete acc.1.objects key,
                     scene := acc.1.scene.filter (fun i => i ≠ oldId) } key, true)
    | none => acc

def parseDeleteKeysStep (st : SimState) (keys : List String) : SimState × Bool :=
  keys.foldl parseDeleteKeyStep (st, false)

/-- The handlers dispatch reaches for one update key: every handler
registered under the key, in registration order. -/
def dispatchKey (cbs : List (String × List (String × HandlerB))) (key : String) :
    List HandlerB :=
  ((dictGet? cbs key).getD []).map (fun p => p.2)

/-- The handler-invocation loop of `parseUpdateKeys(keyVals)`: for every
key of the batch, every registered handler is invoked (the call happens
before the `||`, so no handler is skipped), and the render flag is
`updateCallback(val) || renderFrame`.  Returns the flag and the invocation
trace. -/
def parseUpdateKeysStep (cbs : List (String × List (String × HandlerB)))
    (keys : List String) : Bool × List HandlerB :=
  keys.foldl
    (fun acc key =>
      ((dispatchKey cbs key).foldl (fun r h => h.ret || r) acc.1,
        acc.2 ++ dispatchKey cbs key))
    (false, [])

/-- The coalescing tail of `handleMessage`: dispatch the update keys,
process the delete keys (`renderFrame = parseDeleteKeys(...) || renderFrame`),
and call `renderer.render` once iff the flag is true.  Returns the final
state, the flag, the invocation trace, and the number of renders
requested by this coalescing logic. -/
def handleMessageCore (st : SimState) (updateKeys deleteKeys : List String) :
    SimState × Bool × List HandlerB × Nat :=
  let u := parseUpdateKeysStep st.redisUpdateCallbacks updateKeys
  let d := parseDeleteKeysStep st deleteKeys
  ((d.1, d.2 || u.1, u.2, if d.2 || u.1 then 1 else 0) :
    SimState × Bool × List HandlerB × Nat)

/-! ### Dictionary lemmas -/

theorem dictGet?_cons {α : Type} (p : String × α) (rest : List (String × α)) (k : String) :
    dictGet? (p :: rest) k = if p.1 == k then some p.2 else dictGet? rest k := by
  by_cases h : p.1 == k
  · simp [dictGet?, List.find?_cons_of_pos, h]
  · simp [dictGet?, List.find?_cons_of_neg, h]

theorem find?_overwrite {α : Type} (m : List (String × α)) (k k' : String) (v : α)
    (h : k' ≠ k) :
    dictGet? (m.map (fun p => if p.1 == k then (k, v) else p)) k' = dictGet? m k' := by
  induction m with
  | nil => rfl
  | cons p rest ih =>
    rw [List.map_cons]
    by_cases hp : p.1 == k
    · rw [if_pos hp, dictGet?_cons, dictGet?_cons]
      have h1 : ((k, v).1 == k') = false := by
        simp only [beq_eq_false_iff_ne, ne_eq]
        exact fun hc => h hc.symm
      have h2 : (p.1 == k') = false := by
        simp only [beq_eq_false_iff_ne, ne_eq]
        intro hc
        rw [eq_of_beq hp] at hc
        exact h hc.symm
      rw [h1, h2]
      simp only [Bool.false_eq_true, if_false]
      exact ih
    · rw [if_neg hp, dictGet?_cons, dictGet?_cons]
      by_cases hp' : p.1 == k'
      · rw [if_pos hp', if_pos hp']
      · rw [if_neg hp', if_neg hp']
        exact ih

theorem dictGet?_append_single_ne {α : Type} (m : List (String × α)) {k k' : String}
    (v : α) (h : k' ≠ k) : dictGet? (m ++ [(k, v)]) k' = dictGet? m k' := by
  rw [dictGet?, dictGet?, List.find?_append]
  have hnone : [(k, v)].find? (fun p => p.1 == k') = none := by
    rw [List.find?_eq_none]
    intro x hx
    simp only [List.mem_singleton] at hx
    subst hx
    simp only [beq_eq_false_iff_ne, ne_eq, Bool.not_eq_true]
    exact fun hc => h hc.symm
  rw [hnone, Option.or_none]

theorem dictGet?_insert_self {α : Type} (m : List (String × α)) (k : String) (v : α) :
    dictGet? (dictInsert m k v) k = some v := by
  rw [dictInsert]
  by_cases h : dictHas m k
  · rw [if_pos h]
    rw [dictHas, List.any_eq_true] at h
    induction m with
    | nil => simp at h
    | cons p rest ih =>
      rw [List.map_cons]
      by_cases hp : p.1 == k
      · rw [if_pos hp, dictGet?_cons]
        simp
      · rw [if_neg hp, dictGet?_cons, if_neg hp]
        apply ih
        rcases h with ⟨q, hq, hqk⟩
        rcases List.mem_cons.mp hq with rfl | hq'
        · exact absurd hqk hp
        · exact ⟨q, hq', hqk⟩
  · rw [if_neg h]
    induction m with
    | nil => simp [dictGet?_cons]
    | cons p rest ih =>
      rw [dictHas, List.any_cons] at h
      rw [List.cons_append, dictGet?_cons]
      have hp : (p.1 == k) = false := by
        cases hc : p.1 == k
        · rfl
        · exact absurd (by rw [hc, Bool.true_or]) h
      rw [hp]
      simp only [Bool.false_eq_true, if_false]
      apply ih
      rw [dictHas]
      intro hc
      exact h (by rw [hc, Bool.or_true])

theorem dictGet?_insert_ne {α : Type} (m : List (String × α)) {k k' : String} (v : α)
    (h : k' ≠ k) : dictGet? (dictInsert m k v) k' = dictGet? m k' := by
  rw [dictInsert]
  by_cases hh : dictHas m k
  · rw [if_pos hh]
    exact find?_overwrite m k k' v h
  · rw [if_neg hh]
    exact dictGet?_append_single_ne m v h

theorem dictGet?_delete_self {α : Type} (m : List (String × α)) (k : String) :
    dictGet? (dictDelete m k) k = none := by
  have hnone : (dictDelete m k).find? (fun p => p.1 == k) = none := by
    rw [List.find?_eq_none]
    intro x hx
    rw [dictDelete] at hx
    have := List.of_mem_filter hx
    simpa using this
  rw [dictGet?, hnone]
  rfl

theorem dictGet?_mem_snd {α : Type} {m : List (String × α)} {k : String} {v : α}
    (h : dictGet? m k = some v) : v ∈ m.map (fun p => p.2) := by
  rw [dictGet?] at h
  cases hf : m.find? (fun p => p.1 == k) with
  | none => rw [hf] at h; simp at h
  | some q =>
    rw [hf] at h
    simp only [Option.map_some', Option.some.injEq] at h
    subst h
    exact List.mem_map_of_mem _ (List.mem_of_find?_eq_some hf)

/-! ### Registration lemmas -/

theorem register_callbacks_other (st : SimState) (key keyComponent : String)
    (h : HandlerB) {k : String} (hne : k ≠ key) :
    dictGet? (registerRedisUpdateCallback st key keyComponent h).redisUpdateCallbacks k
      = dictGet? st.redisUpdateCallbacks k := by
  rw [registerRedisUpdateCallback]
  by_cases hk : key = ""
  · rw [if_pos hk]
  · rw [if_neg hk]
    exact dictGet?_insert_ne _ _ hne

theorem register_callbacks_self (st : SimState) (key keyComponent : String)
    (h : HandlerB) (hk : key ≠ "") :
    dictGet? (registerRedisUpdateCallback st key keyComponent h).redisUpdateCallbacks key
      = some (dictInsert ((dictGet? st.redisUpdateCallbacks key).getD [])
          keyComponent h) := by
  rw [registerRedisUpdateCallback, if_neg hk]
  exact dictGet?_insert_self _ _ _

theorem register_robots (st : SimState) (key keyComponent : String) (h : HandlerB) :
    (registerRedisUpdateCallback st key keyComponent h).robots = st.robots := by
  rw [registerRedisUpdateCallback]; split <;> rfl

theorem register_scene (st : SimState) (key keyComponent : String) (h : HandlerB) :
    (registerRedisUpdateCallback st key keyComponent h).scene = st.scene := by
  rw [registerRedisUpdateCallback]; split <;> rfl

theorem register_nextId (st : SimState) (key keyComponent : String) (h : HandlerB) :
    (registerRedisUpdateCallback st key keyComponent h).nextId = st.nextId := by
  rw [registerRedisUpdateCallback]; split <;> rfl

theorem parseRobot_robots (st : SimState) (key : String) (m : RobotModel) :
    (parseRobotModelStep st key m).robots
      = (addComponentToScene st.robots st.scene key st.nextId).1 := by
  simp only [parseRobotModelStep, register_robots]

theorem parseRobot_scene (st : SimState) (key : String) (m : RobotModel) :
    (parseRobotModelStep st key m).scene
      = (addComponentToScene st.robots st.scene key st.nextId).2 := by
  simp only [parseRobotModelStep, register_scene]

theorem parseRobot_nextId (st : SimState) (key : String) (m : RobotModel) :
    (parseRobotModelStep st key m).nextId = st.nextId + 1 := by
  simp only [parseRobotModelStep, register_nextId]

theorem parseRobot_callbacks_other (st : SimState) (key : String) (m : RobotModel)
    {k : String} (h1 : k ≠ m.key_q) (h2 : k ≠ m.key_pos) (h3 : k ≠ m.key_ori) :
    dictGet? (parseRobotModelStep st key m).redisUpdateCallbacks k
      = dictGet? st.redisUpdateCallbacks k := by
  simp only [parseRobotModelStep]
  rw [register_callbacks_other _ _ _ _ h3, register_callbacks_other _ _ _ _ h2,
    register_callbacks_other _ _ _ _ h1]

theorem parseRobot_callbacks_own (st : SimState) (key : String) (m : RobotModel)
    {k : String} (hk : k ≠ "")
    (hmem : k = m.key_q ∨ k = m.key_pos ∨ k = m.key_ori) :
    dictGet? ((dictGet? (parseRobotModelStep st key m).redisUpdateCallbacks k).getD [])
        key = some ⟨st.nextId, true⟩ := by
  simp only [parseRobotModelStep, register_nextId]
  by_cases h3 : k = m.key_ori
  · rw [← h3, register_callbacks_self _ _ _ _ hk]
    simp [dictGet?_insert_self]
  · rw [register_callbacks_other _ _ _ _ h3]
    by_cases h2 : k = m.key_pos
    · rw [← h2, register_callbacks_self _ _ _ _ hk]
      simp [dictGet?_insert_self]
    · rw [register_callbacks_other _ _ _ _ h2]
      rcases hmem with h1 | h1 | h1
      · rw [← h1, register_callbacks_self _ _ _ _ hk]
        simp [dictGet?_insert_self]
      · exact absurd h1 h2
      · exact absurd h1 h3

/-! ### Claim theorems about the lifecycle manager -/

theorem addComponent_get_self (reg : List (String × Nat)) (scene : List Nat)
    (key : String) (newId : Nat) :
    dictGet? (addComponentToScene reg scene key newId).1 key = some newId := by
  rw [addComponentToScene]
  cases h : dictGet? reg key with
  | some oldId => exact dictGet?_insert_self _ _ _
  | none => exact dictGet?_insert_self _ _ _

theorem addComponent_scene_replace {reg : List (String × Nat)} {scene : List Nat}
    {key : String} {oldId : Nat} (newId : Nat) (h : dictGet? reg key = some oldId) :
    (addComponentToScene reg scene key newId).2
      = (scene.filter (fun i => i ≠ oldId)) ++ [newId] := by
  rw [addComponentToScene, h]

theorem foldl_or_ret (hs : List HandlerB) (r0 : Bool) :
    hs.foldl (fun r h => h.ret || r) r0 = (hs.any (fun h => h.ret) || r0) := by
  induction hs generalizing r0 with
  | nil => simp
  | cons h t ih =>
    rw [List.foldl_cons, List.any_cons, ih]
    cases h.ret <;> cases r0 <;> simp

theorem parseUpdateKeys_spec (cbs : List (String × List (String × HandlerB)))
    (keys : List String) :
    ∀ (r0 : Bool) (tr0 : List HandlerB),
      keys.foldl (fun acc key =>
        ((dispatchKey cbs key).foldl (fun r h => h.ret || r) acc.1,
          acc.2 ++ dispatchKey cbs key)) (r0, tr0)
      = ((keys.flatMap (dispatchKey cbs)).any (fun h => h.ret) || r0,
          tr0 ++ keys.flatMap (dispatchKey cbs)) := by
  induction keys with
  | nil => intro r0 tr0; simp
  | cons k rest ih =>
    intro r0 tr0
    rw [List.foldl_cons, ih, List.flatMap_cons]
    rw [Prod.mk.injEq]
    constructor
    · dsimp only
      rw [foldl_or_ret, List.any_append]
      cases (dispatchKey cbs k).any (fun h => h.ret) <;>
        cases (rest.flatMap (dispatchKey cbs)).any (fun h => h.ret) <;>
        cases r0 <;> simp
    · dsimp only
      rw [List.append_assoc]

/-- C9 — "For every decoded batch, the boolean re-render results returned
by all invoked handlers are logically ORed across the whole batch, and
exactly one render is requested per batch (not one per handler), issued
only when that OR is true."  The invocation trace contains every handler of
every present key; the flag is their OR (together with the delete
processing's contribution, which the source also ORs in); the coalescing
logic requests at most one render, exactly when the flag is true. -/
theorem batch_render_coalescing (st : SimState) (updateKeys deleteKeys : List String) :
    (parseUpdateKeysStep st.redisUpdateCallbacks updateKeys).2
        = updateKeys.flatMap (dispatchKey st.redisUpdateCallbacks) ∧
      (parseUpdateKeysStep st.redisUpdateCallbacks updateKeys).1
        = (updateKeys.flatMap (dispatchKey st.redisUpdateCallbacks)).any (fun h => h.ret) ∧
      (handleMessageCore st updateKeys deleteKeys).2.2.2
        = (if (updateKeys.flatMap (dispatchKey st.redisUpdateCallbacks)).any
              (fun h => h.ret) || (parseDeleteKeysStep st deleteKeys).2
           then 1 else 0) ∧
      (handleMessageCore st updateKeys deleteKeys).2.2.2 ≤ 1 := by
  have hspec := parseUpdateKeys_spec st.redisUpdateCallbacks updateKeys false []
  refine ⟨?_, ?_, ?_, ?_⟩
  · rw [parseUpdateKeysStep, hspec]
    simp
  · rw [parseUpdateKeysStep, hspec]
    simp
  · simp only [handleMessageCore, parseUpdateKeysStep, hspec]
    cases hu : (updateKeys.flatMap (dispatchKey st.redisUpdateCallbacks)).any
        (fun h => h.ret) <;>
      cases hd : (parseDeleteKeysStep st deleteKeys).2 <;> simp
  · simp only [handleMessageCore]
    split <;> omega

/-- C1 counterexample — two robot-model updates for the same key `K`, the
second declaring different binding keys: the old binding under `"qA"` is
still registered and dispatching `"qA"` invokes the old entity's handler
(which requests a render) — it is not a no-op, so two binding sets are
active, contradicting the claim. -/
theorem model_replacement_counterexample :
    dispatchKey (parseRobotModelStep (parseRobotModelStep emptySim "K"
        ⟨"qA", "pA", "oA"⟩) "K" ⟨"qB", "pB", "oB"⟩).redisUpdateCallbacks "qA"
        = [⟨0, true⟩] ∧
      parseUpdateKeysStep (parseRobotModelStep (parseRobotModelStep emptySim "K"
          ⟨"qA", "pA", "oA"⟩) "K" ⟨"qB", "pB", "oB"⟩).redisUpdateCallbacks ["qA"]
        = (true, [⟨0, true⟩]) ∧
      dictGet? (parseRobotModelStep (parseRobotModelStep emptySim "K"
          ⟨"qA", "pA", "oA"⟩) "K" ⟨"qB", "pB", "oB"⟩).robots "K" = some 1 ∧
      (parseRobotModelStep (parseRobotModelStep emptySim "K"
          ⟨"qA", "pA", "oA"⟩) "K" ⟨"qB", "pB", "oB"⟩).scene = [1] :=
  ⟨rfl, rfl, rfl, rfl⟩

/-- C1 (amended) — "For every entity key K that is already Live, processing
a second model update for K tears down the previous entity — it is removed
from the scene and from the registry, and exactly the new entity is
installed — and bindings under update keys the new model re-declares are
overwritten; BUT bindings of the old entity under update keys the new model
does not declare are NOT unregistered: they stay registered against the
torn-down entity, and dispatching an update to such a key invokes the old
handler and requests a render (it is not a no-op)." -/
theorem model_replacement_bindings (st : SimState) (key : String)
    (m1 m2 : RobotModel)
    (k : String) (hk : k ≠ "")
    (hold : k = m1.key_q ∨ k = m1.key_pos ∨ k = m1.key_ori)
    (hq : k ≠ m2.key_q) (hp : k ≠ m2.key_pos) (ho : k ≠ m2.key_ori) :
    dictGet? (parseRobotModelStep (parseRobotModelStep st key m1) key m2).robots key
        = some (st.nextId + 1) ∧
      st.nextId ∉ (parseRobotModelStep (parseRobotModelStep st key m1) key m2).scene ∧
      st.nextId + 1 ∈ (parseRobotModelStep (parseRobotModelStep st key m1) key m2).scene ∧
      dictGet? ((dictGet? (parseRobotModelStep (parseRobotModelStep st key m1) key
          m2).redisUpdateCallbacks k).getD []) key = some ⟨st.nextId, true⟩ ∧
      (⟨st.nextId, true⟩ : HandlerB) ∈ dispatchKey (parseRobotModelStep
        (parseRobotModelStep st key m1) key m2).redisUpdateCallbacks k ∧
      (parseUpdateKeysStep (parseRobotModelStep (parseRobotModelStep st key m1) key
          m2).redisUpdateCallbacks [k]).1 = true := by
  set st1 := parseRobotModelStep st key m1 with hst1
  set st2 := parseRobotModelStep st1 key m2 with hst2
  have h1robots : dictGet? st1.robots key = some st.nextId := by
    rw [hst1, parseRobot_robots]
    exact addComponent_get_self _ _ _ _
  have h1next : st1.nextId = st.nextId + 1 := by rw [hst1]; exact parseRobot_nextId _ _ _
  have h2robots : dictGet? st2.robots key = some (st.nextId + 1) := by
    rw [hst2, parseRobot_robots, h1next]
    exact addComponent_get_self _ _ _ _
  have h2scene : st2.scene
      = (st1.scene.filter (fun i => i ≠ st.nextId)) ++ [st.nextId + 1] := by
    rw [hst2, parseRobot_scene, h1next, addComponent_scene_replace _ h1robots]
  have hcb : dictGet? st2.redisUpdateCallbacks k = dictGet? st1.redisUpdateCallbacks k := by
    rw [hst2]
    exact parseRobot_callbacks_other _ _ _ hq hp ho
  have hbind : dictGet? ((dictGet? st2.redisUpdateCallbacks k).getD []) key
      = some ⟨st.nextId, true⟩ := by
    rw [hcb, hst1]
    exact parseRobot_callbacks_own st key m1 hk hold
  have hmem : (⟨st.nextId, true⟩ : HandlerB) ∈ dispatchKey st2.redisUpdateCallbacks k := by
    rw [dispatchKey]
    exact dictGet?_mem_snd hbind
  refine ⟨h2robots, ?_, ?_, hbind, hmem, ?_⟩
  · rw [h2scene]
    intro hmem'
    rcases List.mem_append.mp hmem' with hmem' | hmem'
    · exact absurd (List.of_mem_filter hmem') (by simp)
    · simp at hmem'
  · rw [h2scene]
    simp
  · have hsp := parseUpdateKeys_spec st2.redisUpdateCallbacks [k] false []
    rw [parseUpdateKeysStep, hsp]
    simp only [List.flatMap_cons, List.flatMap_nil, List.append_nil, Bool.or_false]
    exact List.any_eq_true.mpr ⟨⟨st.nextId, true⟩, hmem, rfl⟩

/-- Witness for `model_replacement_bindings` on fresh state with concrete
binding keys. -/
theorem model_replacement_bindings_witness :
    dictGet? (parseRobotModelStep (parseRobotModelStep emptySim "K"
        ⟨"qA", "pA", "oA"⟩) "K" ⟨"qB", "pB", "oB"⟩).robots "K" = some 1 ∧
      0 ∉ (parseRobotModelStep (parseRobotModelStep emptySim "K"
          ⟨"qA", "pA", "oA"⟩) "K" ⟨"qB", "pB", "oB"⟩).scene ∧
      1 ∈ (parseRobotModelStep (parseRobotModelStep emptySim "K"
          ⟨"qA", "pA", "oA"⟩) "K" ⟨"qB", "pB", "oB"⟩).scene ∧
      dictGet? ((dictGet? (parseRobotModelStep (parseRobotModelStep emptySim "K"
          ⟨"qA", "pA", "oA"⟩) "K" ⟨"qB", "pB", "oB"⟩).redisUpdateCallbacks "qA").getD [])
        "K" = some ⟨0, true⟩ ∧
      (⟨0, true⟩ : HandlerB) ∈ dispatchKey (parseRobotModelStep (parseRobotModelStep
        emptySim "K" ⟨"qA", "pA", "oA"⟩) "K" ⟨"qB", "pB", "oB"⟩).redisUpdateCallbacks "qA" ∧
      (parseUpdateKeysStep (parseRobotModelStep (parseRobotModelStep emptySim "K"
          ⟨"qA", "pA", "oA"⟩) "K" ⟨"qB", "pB", "oB"⟩).redisUpdateCallbacks ["qA"]).1
        = true :=
  model_replacement_bindings emptySim "K" ⟨"qA", "pA", "oA"⟩ ⟨"qB", "pB", "oB"⟩
    "qA" (by decide) (Or.inl rfl) (by decide) (by decide) (by decide)

theorem deleteKeyStep_cameras (acc : SimState × Bool) (key : String) :
    (parseDeleteKeyStep acc key).1.cameras = acc.1.cameras := by
  rw [parseDeleteKeyStep]
  cases h1 : dictGet? acc.1.robots key with
  | some oldId => rfl
  | none => cases h2 : dictGet? acc.1.objects key <;> rfl

theorem deleteKeyStep_trajectories (acc : SimState × Bool) (key : String) :
    (parseDeleteKeyStep acc key).1.trajectories = acc.1.trajectories := by
  rw [parseDeleteKeyStep]
  cases h1 : dictGet? acc.1.robots key with
  | some oldId => rfl
  | none => cases h2 : dictGet? acc.1.objects key <;> rfl

theorem deleteKeys_cameras (keys : List String) :
    ∀ acc : SimState × Bool,
      ((keys.foldl parseDeleteKeyStep acc).1).cameras = acc.1.cameras := by
  induction keys with
  | nil => intro acc; rfl
  | cons k rest ih =>
    intro acc
    rw [List.foldl_cons, ih, deleteKeyStep_cameras]

theorem deleteKeys_trajectories (keys : List String) :
    ∀ acc : SimState × Bool,
      ((keys.foldl parseDeleteKeyStep acc).1).trajectories = acc.1.trajectories := by
  induction keys with
  | nil => intro acc; rfl
  | cons k rest ih =>
    intro acc
    rw [List.foldl_cons, ih, deleteKeyStep_trajectories]

/-- C7 (amended) — "Processing an explicit delete of a key removes a Live
Robot or RigidObject entity from the scene and the registry, unregisters
its bindings, and transitions it to Absent, requesting a render; a delete
of a key with no Live robot or object entity is a complete no-op on the
entity state — in particular Live Camera and Trajectory entities are NOT
removed by delete processing: their registries (and bindings) are untouched
for every batch of delete keys." -/
theorem delete_keys_behavior (st : SimState) (key : String) :
    (∀ oldId, dictGet? st.robots key = some oldId →
      dictGet? ((parseDeleteKeysStep st [key]).1).robots key = none ∧
      oldId ∉ ((parseDeleteKeysStep st [key]).1).scene ∧
      (∀ p ∈ ((parseDeleteKeysStep st [key]).1).redisUpdateCallbacks,
        dictGet? p.2 key = none) ∧
      (parseDeleteKeysStep st [key]).2 = true) ∧
    (dictGet? st.robots key = none →
      ∀ oldId, dictGet? st.objects key = some oldId →
      dictGet? ((parseDeleteKeysStep st [key]).1).objects key = none ∧
      oldId ∉ ((parseDeleteKeysStep st [key]).1).scene ∧
      (∀ p ∈ ((parseDeleteKeysStep st [key]).1).redisUpdateCallbacks,
        dictGet? p.2 key = none) ∧
      (parseDeleteKeysStep st [key]).2 = true) ∧
    (dictGet? st.robots key = none → dictGet? st.objects key = none →
      parseDeleteKeysStep st [key] = (st, false)) ∧
    (∀ keys : List String,
      ((parseDeleteKeysStep st keys).1).cameras = st.cameras ∧
      ((parseDeleteKeysStep st keys).1).trajectories = st.trajectories) := by
  have hsingle : parseDeleteKeysStep st [key] = parseDeleteKeyStep (st, false) key := by
    rw [parseDeleteKeysStep, List.foldl_cons, List.foldl_nil]
  refine ⟨?_, ?_, ?_, ?_⟩
  · intro oldId hrob
    rw [hsingle, parseDeleteKeyStep]
    simp only [hrob]
    refine ⟨?_, ?_, ?_, trivial⟩
    · exact dictGet?_delete_self _ _
    · intro hmem
      exact absurd (List.of_mem_filter hmem) (by simp)
    · intro p hp
      simp only [unregisterRedisUpdateCallback, List.mem_map] at hp
      obtain ⟨q, _, rfl⟩ := hp
      exact dictGet?_delete_self _ _
  · intro hrob oldId hobj
    rw [hsingle, parseDeleteKeyStep]
    simp only [hrob, hobj]
    refine ⟨?_, ?_, ?_, trivial⟩
    · exact dictGet?_delete_self _ _
    · intro hmem
      exact absurd (List.of_mem_filter hmem) (by simp)
    · intro p hp
      simp only [unregisterRedisUpdateCallback, List.mem_map] at hp
      obtain ⟨q, _, rfl⟩ := hp
      exact dictGet?_delete_self _ _
  · intro hrob hobj
    rw [hsingle, parseDeleteKeyStep]
    simp only [hrob, hobj]
  · intro keys
    exact ⟨deleteKeys_cameras keys (st, false), deleteKeys_trajectories keys (st, false)⟩

/-- Concrete simulator state used by the lifecycle witnesses: one Live
robot, object, and camera, with one binding each for the robot and
object. -/
def sampleSim : SimState :=
  ⟨[("R", 0)], [("O", 1)], [("C", 2)], [],
    [0, 1, 2], [("a", [("R", ⟨0, true⟩), ("O", ⟨1, true⟩)])], 3⟩

/-- Witness for `delete_keys_behavior`: deleting the robot key removes it
and unregisters its bindings; deleting an unknown key is a no-op. -/
theorem delete_keys_behavior_witness :
    dictGet? ((parseDeleteKeysStep sampleSim ["R"]).1).robots "R" = none ∧
      0 ∉ ((parseDeleteKeysStep sampleSim ["R"]).1).scene ∧
      (∀ p ∈ ((parseDeleteKeysStep sampleSim ["R"]).1).redisUpdateCallbacks,
        dictGet? p.2 "R" = none) ∧
      (parseDeleteKeysStep sampleSim ["R"]).2 = true ∧
      parseDeleteKeysStep sampleSim ["X"] = (sampleSim, false) := by
  have h1 := (delete_keys_behavior sampleSim "R").1 0 rfl
  have h2 := (delete_keys_behavior sampleSim "X").2.2.1 rfl rfl
  exact ⟨h1.1, h1.2.1, h1.2.2.1, h1.2.2.2, h2⟩

/-- C7 counterexample — a Live camera entity whose key is deleted: the
delete is a no-op on the camera registry and its bindings, so the camera
does NOT transition to Absent, contradicting the claim for the Camera
kind. -/
theorem delete_camera_counterexample :
    dictGet? (parseCameraModelStep emptySim "C" ⟨"p", "o", "i", "d", "c"⟩ true).cameras
        "C" = some 0 ∧
      parseDeleteKeysStep (parseCameraModelStep emptySim "C" ⟨"p", "o", "i", "d", "c"⟩
          true) ["C"]
        = (parseCameraModelStep emptySim "C" ⟨"p", "o", "i", "d", "c"⟩ true, false) ∧
      dictGet? ((dictGet? (parseDeleteKeysStep (parseCameraModelStep emptySim "C"
          ⟨"p", "o", "i", "d", "c"⟩ true) ["C"]).1.redisUpdateCallbacks "p").getD [])
        "C" = some ⟨0, true⟩ :=
  ⟨rfl, rfl, rfl⟩

end Sim

namespace Cam

/-- A JavaScript number as the camera pipeline observes it: exact rational
arithmetic extended with the IEEE special values NaN and ±Infinity, which
the skip test `isNaN(d) || d <= 0` of `renderPointCloud` can distinguish.
Rounding of finite values is not modelled (finite values are exact
rationals). -/
inductive FVal where
  | nan
  | inf
  | ninf
  | fin (q : ℚ)
deriving DecidableEq

/-- `isNaN(d)`. -/
def FVal.isNaNb : FVal → Bool
  | .nan => true
  | _ => false

/-- `d <= 0` under IEEE comparison: false for NaN and +Infinity, true for
−Infinity. -/
def FVal.leZero : FVal → Bool
  | .nan => false
  | .inf => false
  | .ninf => true
  | .fin q => decide (q ≤ 0)

/-- Multiplication by an exact rational with the IEEE rules for the special
values (`Infinity * 0` is NaN). -/
def fmulQ : FVal → ℚ → FVal
  | .nan, _ => .nan
  | .inf, q => if 0 < q then .inf else if q < 0 then .ninf else .nan
  | .ninf, q => if 0 < q then .ninf else if q < 0 then .inf else .nan
  | .fin a, q => .fin (a * q)

/-- Division by an exact rational with the IEEE rules for the special
values and for division by (positive) zero. -/
def fdivQ : FVal → ℚ → FVal
  | .nan, _ => .nan
  | .inf, q => if q < 0 then .ninf else .inf
  | .ninf, q => if q < 0 then .inf else .ninf
  | .fin a, q =>
    if q = 0 then (if 0 < a then .inf else if a < 0 then .ninf else .nan)
    else .fin (a / q)

/-- `K[i][j]` on the parsed intrinsic matrix (an array of arrays). -/
def get2 (K : List (List ℚ)) (i j : Nat) : ℚ := (K.getD i []).getD j 0

/-- The depth sample `spec.depthImage[numCols*y + x] / 1000` of
`renderPointCloud`; an out-of-range JavaScript index reads `undefined`,
whose division yields NaN. -/
def depthAt (depth : List FVal) (numCols y x : Nat) : FVal :=
  fdivQ (depth.getD (numCols * y + x) .nan) 1000

/-- The position written for an emitted pixel:
`x = d*(x − K[0][2]) / K[0][0]`, `y = d*((numRows − y) − K[1][2]) / K[1][1]`,
`z = d`. -/
def pointAt (K : List (List ℚ)) (numRows y x : Nat) (d : FVal) :
    FVal × FVal × FVal :=
  (fdivQ (fmulQ d ((x : ℚ) - get2 K 0 2)) (get2 K 0 0),
   fdivQ (fmulQ d (((numRows : ℚ) - (y : ℚ)) - get2 K 1 2)) (get2 K 1 1),
   d)

/-- The position buffer and write cursor `idx` of `renderPointCloud`'s
position loop.  A write past the end of a `Float32Array` is silently
dropped in JavaScript, matching `List.set`'s out-of-range no-op. -/
structure PCState where
  buffer : List FVal
  idx : Nat
deriving DecidableEq

/-- The body of the position loop for one sampled pixel: skip when
`isNaN(d) || d <= 0`, otherwise write the three coordinates at `3*idx` and
advance the cursor. -/
def pcWrite (K : List (List ℚ)) (numRows y x : Nat) (d : FVal)
    (st : PCState) : PCState :=
  if d.isNaNb || d.leZero then st
  else
    { buffer := ((st.buffer.set (3 * st.idx) (pointAt K numRows y x d).1).set
        (3 * st.idx + 1) (pointAt K numRows y x d).2.1).set
        (3 * st.idx + 2) (pointAt K numRows y x d).2.2,
      idx := st.idx + 1 }

/-- The nested position loop of `renderPointCloud` (camera.js): raster
order, row-major, skipping rows and columns not divisible by the downscale
factor (the source fixes `DOWNSCALE_FACTOR = 2`; it is a parameter here).
-/
def renderPointCloudPos (depth : List FVal) (numRows numCols ds : Nat)
    (K : List (List ℚ)) (buf0 : List FVal) : PCState :=
  (List.range numRows).foldl
    (fun st y =>
      if y % ds ≠ 0 then st
      else
        (List.range numCols).foldl
          (fun st x =>
            if x % ds ≠ 0 then st
            else pcWrite K numRows y x (depthAt depth numCols y x) st)
          st)
    ⟨buf0, 0⟩

/-- `points.geometry.setDrawRange(0, idx)`: the draw-range limit is the
final write cursor. -/
def renderPointCloudDrawRange (depth : List FVal) (numRows numCols ds : Nat)
    (K : List (List ℚ)) (buf0 : List FVal) : Nat :=
  (renderPointCloudPos depth numRows numCols ds K buf0).idx

/-- The sampled pixel coordinates in raster order: row-major, rows and
columns divisible by the downscale factor. -/
def sampledCoords (numRows numCols ds : Nat) : List (Nat × Nat) :=
  ((List.range numRows).filter (fun y => y % ds = 0)).flatMap
    (fun y => ((List.range numCols).filter (fun x => x % ds = 0)).map (fun x => (y, x)))

/-- The source's emission test at a sampled pixel: the depth in meters is
neither NaN nor `<= 0` (so `+Infinity` passes). -/
def codeEmits (depth : List FVal) (numCols : Nat) (c : Nat × Nat) : Bool :=
  !(depthAt depth numCols c.1 c.2).isNaNb && !(depthAt depth numCols c.1 c.2).leZero

/-- The emission test in the words of the spec: the depth in meters is a
finite positive number. -/
def specEmits (depth : List FVal) (numCols : Nat) (c : Nat × Nat) : Bool :=
  match depthAt depth numCols c.1 c.2 with
  | .fin q => decide (0 < q)
  | _ => false

/-- The emitted points in raster order with their back-projected
coordinates. -/
def emittedPoints (depth : List FVal) (numRows numCols ds : Nat)
    (K : List (List ℚ)) : List (FVal × FVal × FVal) :=
  ((sampledCoords numRows numCols ds).filter (codeEmits depth numCols)).map
    (fun c => pointAt K numRows c.1 c.2 (depthAt depth numCols c.1 c.2))

/-! ### The asynchronous image pipeline -/

/-- The per-camera frame state `camera.redisgl` of camera.js. -/
structure CamSpecS where
  colorImage : Option (List FVal)
  depthImage : Option (List FVal)
  depthDim : List Nat
  colorDim : List Nat
  intrinsic : Option (List (List ℚ))
deriving DecidableEq

def emptyCamSpec : CamSpecS := ⟨none, none, [0, 0, 0], [0, 0, 0], none⟩

/-- An in-flight image decode: the camera object captured by the
`promise_img.then` closure, with the decoded image and dimensions it will
deliver. -/
structure PendingDecode where
  camId : Nat
  img : List FVal
  dim : List Nat
deriving DecidableEq

/-- The world the asynchronous image pipeline acts on: the heap of camera
objects ever created (deleting a registry entry does not destroy the object
a closure captured), the `cameras` registry of Live entities, the
module-global `updatingDepth`/`updatingColor` flags, and the in-flight
decodes. -/
structure CamWorld where
  camObjects : List (Nat × CamSpecS)
  registry : List (String × Nat)
  updatingDepth : Bool
  updatingColor : Bool
  pendingDepth : Option PendingDecode
  pendingColor : Option PendingDecode
deriving DecidableEq

/-- The frame state of the camera object `id` on the heap. -/
def camGet? (objs : List (Nat × CamSpecS)) (id : Nat) : Option CamSpecS :=
  (objs.find? (fun p => p.1 == id)).map (fun p => p.2)

def specOf (w : CamWorld) (id : Nat) : Option CamSpecS :=
  camGet? w.camObjects id

/-- A camera object is Live when some registry key maps to it. -/
def isLive (w : CamWorld) (id : Nat) : Bool :=
  w.registry.any (fun p => p.2 == id)

/-- The synchronous part of `updateDepthImage(camera, opencv_mat,
renderCallback)`: a value that is not an `ArrayBuffer` is rejected before
anything happens; a second decode is rejected while one is outstanding;
otherwise the container is parsed (the codec is the external collaborator
`parse`) and the completion is recorded as pending.  The handler always
returns `false`. -/
def updateDepthImage (w : CamWorld) (camId : Nat) (val : Wire.PayloadValue)
    (parse : List Nat → List FVal × List Nat) : Bool × CamWorld :=
  match val with
  | .text _ => (false, w)
  | .binary bs =>
    if w.updatingDepth then (false, w)
    else
      (false, { w with updatingDepth := true,
                       pendingDepth := some ⟨camId, (parse bs).1, (parse bs).2⟩ })

/-- The synchronous part of `updateColorImage`, symmetric to
`updateDepthImage`. -/
def updateColorImage (w : CamWorld) (camId : Nat) (val : Wire.PayloadValue)
    (parse : List Nat → List FVal × List Nat) : Bool × CamWorld :=
  match val with
  | .text _ => (false, w)
  | .binary bs =>
    if w.updatingColor then (false, w)
    else
      (false, { w with updatingColor := true,
                       pendingColor := some ⟨camId, (parse bs).1, (parse bs).2⟩ })

/-- The completion (`promise_img.then(...)`) of a depth decode: the
captured camera object's `redisgl` spec is mutated unconditionally — the
source has no check that the owning entity is still Live — and the render
callback fires unless a color decode is still outstanding.  Returns the new
world and whether a render was requested. -/
def completeDepthDecode (w : CamWorld) : CamWorld × Bool :=
  match w.pendingDepth with
  | none => (w, false)
  | some p =>
    ({ w with
        camObjects := w.camObjects.map (fun q =>
          if q.1 == p.camId then
            (q.1, { q.2 with depthImage := some p.img, depthDim := p.dim })
          else q),
        pendingDepth := none,
        updatingDepth := false },
      !w.updatingColor)

/-- `addComponentToScene` on the cameras registry, as model replacement
tears a camera down: the registry key is moved to the fresh object; the old
object stays on the heap, still referenced by any in-flight closure. -/
def replaceCamera (w : CamWorld) (key : String) (newId : Nat) : CamWorld :=
  { w with registry := Sim.dictInsert (Sim.dictDelete w.registry key) key newId,
           camObjects := w.camObjects ++ [(newId, emptyCamSpec)] }

theorem camGet?_update_ne (objs : List (Nat × CamSpecS)) (cid : Nat)
    (f : CamSpecS → CamSpecS) {id : Nat} (h : id ≠ cid) :
    camGet? (objs.map (fun q => if q.1 == cid then (q.1, f q.2) else q)) id
      = camGet? objs id := by
  induction objs with
  | nil => rfl
  | cons q rest ih =>
    rw [List.map_cons]
    by_cases hq : q.1 == cid
    · rw [if_pos hq]
      have h1 : ((q.1, f q.2).1 == id) = false := by
        simp only [beq_eq_false_iff_ne, ne_eq]
        intro hc
        rw [eq_of_beq hq] at hc
        exact h hc.symm
      have h2 : (q.1 == id) = false := h1
      rw [camGet?, camGet?, List.find?_cons_of_neg _ (by simp [h1]),
        List.find?_cons_of_neg _ (by simp [h2])]
      exact ih
    · rw [if_neg hq]
      by_cases hq' : q.1 == id
      · rw [camGet?, camGet?, List.find?_cons_of_pos _ (by simp [hq']),
          List.find?_cons_of_pos _ (by simp [hq'])]
      · rw [camGet?, camGet?, List.find?_cons_of_neg _ (by simp [hq']),
          List.find?_cons_of_neg _ (by simp [hq'])]
        exact ih

theorem camGet?_update_self (objs : List (Nat × CamSpecS)) (cid : Nat)
    (f : CamSpecS → CamSpecS) {s : CamSpecS} (h : camGet? objs cid = some s) :
    camGet? (objs.map (fun q => if q.1 == cid then (q.1, f q.2) else q)) cid
      = some (f s) := by
  induction objs with
  | nil => simp [camGet?] at h
  | cons q rest ih =>
    rw [List.map_cons]
    by_cases hq : q.1 == cid
    · rw [if_pos hq]
      rw [camGet?, List.find?_cons_of_pos _ (by simp [hq])] at h
      simp only [Option.map_some', Option.some.injEq] at h
      subst h
      rw [camGet?, List.find?_cons_of_pos _ (by simp [hq])]
      rfl
    · rw [if_neg hq]
      rw [camGet?, List.find?_cons_of_neg _ (by simp [hq])] at h
      rw [camGet?, List.find?_cons_of_neg _ (by simp [hq])]
      exact ih h

/-- C8 (amended) — "An in-flight decode completion applies its image
unconditionally to the camera object captured at initiation: the source
performs no liveness check.  The completion mutates no other object and
leaves the registry untouched, so when the owning entity was torn down
(deleted or replaced) before the decode finished, the mutation lands only
on the detached object — every other entity, in particular every Live one,
keeps its frame state unchanged." -/
theorem stale_completion_isolated (w : CamWorld) (p : PendingDecode)
    (hp : w.pendingDepth = some p) :
    (∀ id, id ≠ p.camId →
      specOf (completeDepthDecode w).1 id = specOf w id) ∧
      (completeDepthDecode w).1.registry = w.registry ∧
      (∀ id, isLive (completeDepthDecode w).1 id = isLive w id) ∧
      (∀ s, specOf w p.camId = some s →
        specOf (completeDepthDecode w).1 p.camId
          = some { s with depthImage := some p.img, depthDim := p.dim }) := by
  simp only [completeDepthDecode, hp, specOf]
  refine ⟨?_, trivial, fun id => rfl, ?_⟩
  · intro id hid
    exact camGet?_update_ne w.camObjects p.camId
      (fun s => { s with depthImage := some p.img, depthDim := p.dim }) hid
  · intro s hs
    exact camGet?_update_self w.camObjects p.camId
      (fun s => { s with depthImage := some p.img, depthDim := p.dim }) hs

/-- The world of the stale-completion scenario: one Live camera `"C"` (heap
object 0) with an in-flight depth decode. -/
def staleWorld : CamWorld :=
  (updateDepthImage
    ⟨[(0, emptyCamSpec)], [("C", 0)], false, false, none, none⟩
    0 (.binary [7]) (fun _ => ([.fin 5], [1, 1, 1]))).2

/-- C8 counterexample — the camera is replaced (torn down) while its depth
decode is in flight; the completion then runs: it does NOT check liveness
and mutates the torn-down object's frame state, and even requests a
render, contradicting "stale completions are discarded". -/
theorem stale_completion_counterexample :
    isLive (replaceCamera staleWorld "C" 1) 0 = false ∧
      specOf (replaceCamera staleWorld "C" 1) 0 = some emptyCamSpec ∧
      specOf (completeDepthDecode (replaceCamera staleWorld "C" 1)).1 0
        = some { emptyCamSpec with depthImage := some [.fin 5], depthDim := [1, 1, 1] } ∧
      (completeDepthDecode (replaceCamera staleWorld "C" 1)).2 = true :=
  ⟨rfl, rfl, rfl, rfl⟩

/-- Witness for `stale_completion_isolated` at the concrete stale-decode
world after replacement. -/
theorem stale_completion_isolated_witness :
    (∀ id, id ≠ 0 →
      specOf (completeDepthDecode (replaceCamera staleWorld "C" 1)).1 id
        = specOf (replaceCamera staleWorld "C" 1) id) ∧
      (completeDepthDecode (replaceCamera staleWorld "C" 1)).1.registry
        = (replaceCamera staleWorld "C" 1).registry ∧
      (∀ id, isLive (completeDepthDecode (replaceCamera staleWorld "C" 1)).1 id
        = isLive (replaceCamera staleWorld "C" 1) id) ∧
      (∀ s, specOf (replaceCamera staleWorld "C" 1) 0 = some s →
        specOf (completeDepthDecode (replaceCamera staleWorld "C" 1)).1 0
          = some { s with depthImage := some [.fin 5], depthDim := [1, 1, 1] }) :=
  stale_completion_isolated (replaceCamera staleWorld "C" 1) ⟨0, [.fin 5], [1, 1, 1]⟩ rfl

/-- C10 — "For every value dispatched to a camera's depth-image or
color-image binding that is not a binary blob (ArrayBuffer) — e.g., a text
value — the handler returns `false` immediately without starting a decode
and leaves the camera's entire frame state (colorImage, depthImage,
dimensions, intrinsic) unchanged": the guard
`opencv_mat.constructor !== ArrayBuffer` fires before anything else, so the
whole world — heap objects, flags, pending decodes — is returned
untouched. -/
theorem image_handler_rejects_non_binary (w : CamWorld) (camId : Nat)
    (s : List Nat) (parse : List Nat → List FVal × List Nat) :
    updateDepthImage w camId (.text s) parse = (false, w) ∧
      updateColorImage w camId (.text s) parse = (false, w) :=
  ⟨rfl, rfl⟩

/-! ### The position loop as a write sequence -/

theorem foldl_skip {α β : Type} (p : β → Prop) [DecidablePred p] (g : α → β → α) :
    ∀ (l : List β) (a : α),
      l.foldl (fun st y => if ¬ p y then st else g st y) a
        = (l.filter (fun y => decide (p y))).foldl g a := by
  intro l
  induction l with
  | nil => intro a; rfl
  | cons x rest ih =>
    intro a
    rw [List.foldl_cons, List.filter_cons]
    by_cases hx : p x
    · rw [if_neg (not_not_intro hx), if_pos (by simpa using hx), List.foldl_cons, ih]
    · rw [if_pos hx, if_neg (by simpa using hx), ih]

theorem foldl_flatMap {α β γ : Type} (f : β → List γ) (g : α → γ → α) :
    ∀ (l : List β) (a : α),
      (l.flatMap f).foldl g a = l.foldl (fun a x => (f x).foldl g a) a := by
  intro l
  induction l with
  | nil => intro a; rfl
  | cons x rest ih =>
    intro a
    rw [List.flatMap_cons, List.foldl_append, List.foldl_cons, ih]

/-- The nested loop equals a single fold over the sampled coordinates. -/
theorem renderPointCloudPos_eq (depth : List FVal) (numRows numCols ds : Nat)
    (K : List (List ℚ)) (buf0 : List FVal) :
    renderPointCloudPos depth numRows numCols ds K buf0
      = (sampledCoords numRows numCols ds).foldl
          (fun st c => pcWrite K numRows c.1 c.2 (depthAt depth numCols c.1 c.2) st)
          ⟨buf0, 0⟩ := by
  rw [renderPointCloudPos, sampledCoords, foldl_flatMap, foldl_skip]
  have hinner : ∀ (st : PCState) (y : Nat),
      (List.range numCols).foldl
        (fun st x => if x % ds ≠ 0 then st
          else pcWrite K numRows y x (depthAt depth numCols y x) st) st
      = (((List.range numCols).filter (fun x => decide (x % ds = 0))).map
          (fun x => (y, x))).foldl
          (fun st c => pcWrite K numRows c.1 c.2 (depthAt depth numCols c.1 c.2) st)
          st := by
    intro st y
    rw [foldl_skip, List.foldl_map]
  have hfun :
      (fun (st : PCState) (y : Nat) =>
        (List.range numCols).foldl
          (fun st x => if x % ds ≠ 0 then st
            else pcWrite K numRows y x (depthAt depth numCols y x) st) st)
      = (fun (st : PCState) (y : Nat) =>
        (((List.range numCols).filter (fun x => decide (x % ds = 0))).map
          (fun x => (y, x))).foldl
          (fun st c => pcWrite K numRows c.1 c.2 (depthAt depth numCols c.1 c.2) st)
          st) :=
    funext fun st => funext fun y => hinner st y
  rw [hfun]

/-- The sequence of three-coordinate writes the loop performs, starting at
slot `i`. -/
def writePoints : List FVal → Nat → List (FVal × FVal × FVal) → List FVal
  | buf, _, [] => buf
  | buf, i, p :: ps =>
    writePoints (((buf.set (3 * i) p.1).set (3 * i + 1) p.2.1).set (3 * i + 2) p.2.2)
      (i + 1) ps

theorem emit_fold (K : List (List ℚ)) (numRows : Nat) (depth : List FVal)
    (numCols : Nat) (cs : List (Nat × Nat)) :
    ∀ (st : PCState),
      cs.foldl (fun st c => pcWrite K numRows c.1 c.2 (depthAt depth numCols c.1 c.2) st)
          st
        = ⟨writePoints st.buffer st.idx
            ((cs.filter (codeEmits depth numCols)).map
              (fun c => pointAt K numRows c.1 c.2 (depthAt depth numCols c.1 c.2))),
          st.idx + (cs.filter (codeEmits depth numCols)).length⟩ := by
  induction cs with
  | nil => intro st; simp [writePoints]
  | cons c rest ih =>
    intro st
    rw [List.foldl_cons, List.filter_cons]
    by_cases hc : codeEmits depth numCols c = true
    · have hskip : ((depthAt depth numCols c.1 c.2).isNaNb
          || (depthAt depth numCols c.1 c.2).leZero) = false := by
        rw [codeEmits] at hc
        cases h1 : (depthAt depth numCols c.1 c.2).isNaNb <;>
          cases h2 : (depthAt depth numCols c.1 c.2).leZero <;> simp_all
      rw [if_pos hc, pcWrite, hskip]
      simp only [Bool.false_eq_true, if_false]
      rw [ih]
      simp only [List.map_cons, List.length_cons, writePoints]
      rw [PCState.mk.injEq]
      exact ⟨rfl, by omega⟩
    · have hskip : ((depthAt depth numCols c.1 c.2).isNaNb
          || (depthAt depth numCols c.1 c.2).leZero) = true := by
        rw [codeEmits] at hc
        cases h1 : (depthAt depth numCols c.1 c.2).isNaNb <;>
          cases h2 : (depthAt depth numCols c.1 c.2).leZero <;> simp_all
      rw [if_neg hc, pcWrite, hskip]
      simp only [if_true]
      exact ih st

theorem writePoints_length :
    ∀ (pts : List (FVal × FVal × FVal)) (buf : List FVal) (i : Nat),
      (writePoints buf i pts).length = buf.length := by
  intro pts
  induction pts with
  | nil => intro buf i; rfl
  | cons p ps ih =>
    intro buf i
    rw [writePoints, ih]
    simp

theorem writePoints_preserve :
    ∀ (pts : List (FVal × FVal × FVal)) (buf : List FVal) (i m : Nat),
      m < 3 * i → (writePoints buf i pts).getD m .nan = buf.getD m .nan := by
  intro pts
  induction pts with
  | nil => intro buf i m _; rfl
  | cons p ps ih =>
    intro buf i m hm
    rw [writePoints, ih _ (i + 1) m (by omega)]
    simp only [List.getD_eq_getElem?_getD]
    rw [List.getElem?_set_ne (by omega), List.getElem?_set_ne (by omega),
      List.getElem?_set_ne (by omega)]

theorem writePoints_getD :
    ∀ (pts : List (FVal × FVal × FVal)) (buf : List FVal) (i j : Nat),
      j < pts.length → 3 * (i + pts.length) ≤ buf.length →
      (writePoints buf i pts).getD (3 * (i + j)) .nan
          = (pts.getD j (.nan, .nan, .nan)).1 ∧
        (writePoints buf i pts).getD (3 * (i + j) + 1) .nan
          = (pts.getD j (.nan, .nan, .nan)).2.1 ∧
        (writePoints buf i pts).getD (3 * (i + j) + 2) .nan
          = (pts.getD j (.nan, .nan, .nan)).2.2 := by
  intro pts
  induction pts with
  | nil => intro buf i j hj _; simp at hj
  | cons p ps ih =>
    intro buf i j hj hlen
    rw [List.length_cons] at hlen
    cases j with
    | zero =>
      simp only [Nat.add_zero, List.getD_cons_zero]
      rw [writePoints]
      have hb : 3 * i + 2 < buf.length := by omega
      have hs0 := writePoints_preserve ps
        (((buf.set (3 * i) p.1).set (3 * i + 1) p.2.1).set (3 * i + 2) p.2.2)
        (i + 1) (3 * i) (by omega)
      have hs1 := writePoints_preserve ps
        (((buf.set (3 * i) p.1).set (3 * i + 1) p.2.1).set (3 * i + 2) p.2.2)
        (i + 1) (3 * i + 1) (by omega)
      have hs2 := writePoints_preserve ps
        (((buf.set (3 * i) p.1).set (3 * i + 1) p.2.1).set (3 * i + 2) p.2.2)
        (i + 1) (3 * i + 2) (by omega)
      refine ⟨?_, ?_, ?_⟩
      · rw [hs0]
        simp only [List.getD_eq_getElem?_getD]
        rw [List.getElem?_set_ne (by omega), List.getElem?_set_ne (by omega),
          List.getElem?_set_self (by omega)]
        rfl
      · rw [hs1]
        simp only [List.getD_eq_getElem?_getD]
        rw [List.getElem?_set_ne (by omega),
          List.getElem?_set_self (by simp only [List.length_set]; omega)]
        rfl
      · rw [hs2]
        simp only [List.getD_eq_getElem?_getD]
        rw [List.getElem?_set_self (by simp only [List.length_set]; omega)]
        rfl
    | succ j' =>
      rw [writePoints]
      have harith : ∀ m : Nat, 3 * (i + (j' + 1)) + m = 3 * ((i + 1) + j') + m := by
        intro m; omega
      have hlen' : 3 * ((i + 1) + ps.length)
          ≤ (((buf.set (3 * i) p.1).set (3 * i + 1) p.2.1).set (3 * i + 2) p.2.2).length := by
        simp only [List.length_set]
        omega
      have hj' : j' < ps.length := by
        rw [List.length_cons] at hj; omega
      have := ih _ (i + 1) j' hj' hlen'
      refine ⟨?_, ?_, ?_⟩
      · have h0 := harith 0
        simp only [Nat.add_zero] at h0
        rw [h0]
        simpa using this.1
      · rw [harith 1]
        simpa using this.2.1
      · rw [harith 2]
        simpa using this.2.2

/-- C4 counterexample — a 1×1 depth image holding `+Infinity` with the
identity intrinsic: the source's test `isNaN(d) || d <= 0` does not skip
an infinite depth, so a point is emitted (`idx = 1`) although no sampled
pixel has a finite positive depth as the claim requires. -/
theorem pointcloud_infinite_depth_counterexample :
    (renderPointCloudPos [.inf] 1 1 1 [[1, 0, 0], [0, 1, 0], [0, 0, 1]]
        [.fin 0, .fin 0, .fin 0]).idx = 1 ∧
      ((sampledCoords 1 1 1).filter (specEmits [.inf] 1)).length = 0 ∧
      codeEmits [.inf] 1 (0, 0) = true ∧
      specEmits [.inf] 1 (0, 0) = false :=
  ⟨rfl, rfl, rfl, rfl⟩

/-- C4 (amended) — "For every depth image, intrinsic matrix K and downscale
factor, the point-cloud reprojector emits, in raster order, exactly the
pixels with row % downscale == 0 and col % downscale == 0 whose depth
d = raw/1000 is positive and not NaN (`+Infinity` is also emitted — the
source's test is `isNaN(d) || d <= 0`, not finiteness), each emitted point
being x = d*(col − K[0][2])/K[0][0], y = d*((numRows−row) − K[1][2])/K[1][1],
z = d, with visibleCount equal to the number of emitted points and set as
the draw-range limit."  The buffer hypothesis says the output buffer is
large enough (the source pre-sizes it for the worst case). -/
theorem pointcloud_emission (depth : List FVal) (numRows numCols ds : Nat)
    (K : List (List ℚ)) (buf0 : List FVal)
    (hbuf : 3 * (emittedPoints depth numRows numCols ds K).length ≤ buf0.length) :
    (renderPointCloudPos depth numRows numCols ds K buf0).idx
        = (emittedPoints depth numRows numCols ds K).length ∧
      (∀ j, j < (emittedPoints depth numRows numCols ds K).length →
        (renderPointCloudPos depth numRows numCols ds K buf0).buffer.getD (3 * j) .nan
            = ((emittedPoints depth numRows numCols ds K).getD j (.nan, .nan, .nan)).1 ∧
          (renderPointCloudPos depth numRows numCols ds K buf0).buffer.getD
              (3 * j + 1) .nan
            = ((emittedPoints depth numRows numCols ds K).getD j
                (.nan, .nan, .nan)).2.1 ∧
          (renderPointCloudPos depth numRows numCols ds K buf0).buffer.getD
              (3 * j + 2) .nan
            = ((emittedPoints depth numRows numCols ds K).getD j
                (.nan, .nan, .nan)).2.2) ∧
      renderPointCloudDrawRange depth numRows numCols ds K buf0
        = (emittedPoints depth numRows numCols ds K).length := by
  have hrw : renderPointCloudPos depth numRows numCols ds K buf0
      = ⟨writePoints buf0 0 (emittedPoints depth numRows numCols ds K),
          0 + (emittedPoints depth numRows numCols ds K).length⟩ := by
    rw [renderPointCloudPos_eq,
      emit_fold K numRows depth numCols (sampledCoords numRows numCols ds) ⟨buf0, 0⟩]
    simp [emittedPoints]
  refine ⟨?_, ?_, ?_⟩
  · rw [hrw]; simp
  · intro j hj
    rw [hrw]
    have := writePoints_getD (emittedPoints depth numRows numCols ds K) buf0 0 j hj
      (by simpa using hbuf)
    simpa using this
  · rw [renderPointCloudDrawRange, hrw]; simp

/-- Witness for `pointcloud_emission` on a 1×1 depth image whose single
pixel holds `+Infinity` (which the source emits). -/
theorem pointcloud_emission_witness :
    (renderPointCloudPos [.inf] 1 1 1 [[1, 0, 0], [0, 1, 0], [0, 0, 1]]
        [.fin 0, .fin 0, .fin 0]).idx
        = (emittedPoints [.inf] 1 1 1 [[1, 0, 0], [0, 1, 0], [0, 0, 1]]).length ∧
      (∀ j, j < (emittedPoints [.inf] 1 1 1
          [[1, 0, 0], [0, 1, 0], [0, 0, 1]]).length →
        (renderPointCloudPos [.inf] 1 1 1 [[1, 0, 0], [0, 1, 0], [0, 0, 1]]
            [.fin 0, .fin 0, .fin 0]).buffer.getD (3 * j) .nan
            = ((emittedPoints [.inf] 1 1 1
                [[1, 0, 0], [0, 1, 0], [0, 0, 1]]).getD j (.nan, .nan, .nan)).1 ∧
          (renderPointCloudPos [.inf] 1 1 1 [[1, 0, 0], [0, 1, 0], [0, 0, 1]]
              [.fin 0, .fin 0, .fin 0]).buffer.getD (3 * j + 1) .nan
            = ((emittedPoints [.inf] 1 1 1
                [[1, 0, 0], [0, 1, 0], [0, 0, 1]]).getD j (.nan, .nan, .nan)).2.1 ∧
          (renderPointCloudPos [.inf] 1 1 1 [[1, 0, 0], [0, 1, 0], [0, 0, 1]]
              [.fin 0, .fin 0, .fin 0]).buffer.getD (3 * j + 2) .nan
            = ((emittedPoints [.inf] 1 1 1
                [[1, 0, 0], [0, 1, 0], [0, 0, 1]]).getD j (.nan, .nan, .nan)).2.2) ∧
      renderPointCloudDrawRange [.inf] 1 1 1 [[1, 0, 0], [0, 1, 0], [0, 0, 1]]
          [.fin 0, .fin 0, .fin 0]
        = (emittedPoints [.inf] 1 1 1 [[1, 0, 0], [0, 1, 0], [0, 0, 1]]).length :=
  pointcloud_emission [.inf] 1 1 1 [[1, 0, 0], [0, 1, 0], [0, 0, 1]]
    [.fin 0, .fin 0, .fin 0] (by decide)

end Cam

/-!
## Trajectory ring buffer (trajectory.js)

`appendPosition` in trajectory.js writes the new position into the shared
position attribute at offset `3 * spec.idx` (one `THREE.Vector3` per slot;
we model the attribute as a list of `C + 1` slots, one entry per vector),
increments `spec.idx`, and on overflow past `LEN_TRAJECTORY_TRAIL`
(the capacity, parameter `C` here) rewrites the same position at slot `0`
and resets `spec.idx` to `1`.  The two line geometries expose draw ranges
`(0, len)` while filling, and `(0, idx)` / `(idx, C - idx + 1)` once full.
-/

namespace Traj

structure TrajState (α : Type) where
  slots : List α
  idx : Nat
  len : Nat
  drawRange1 : Nat × Nat
  drawRange2 : Nat × Nat

/-- `appendPosition` from trajectory.js, with `LEN_TRAJECTORY_TRAIL`
generalised to the parameter `C`. -/
def appendPosition (C : Nat) (st : TrajState α) (pos : α) : TrajState α :=
  let slots1 := st.slots.set st.idx pos
  let idx1 := st.idx + 1
  let slots2 := if C < idx1 then slots1.set 0 pos else slots1
  let idx2 := if C < idx1 then 1 else idx1
  if st.len < C then
    { slots := slots2, idx := idx2, len := st.len + 1,
      drawRange1 := (0, st.len + 1), drawRange2 := st.drawRange2 }
  else
    { slots := slots2, idx := idx2, len := st.len,
      drawRange1 := (0, idx2), drawRange2 := (idx2, C - idx2 + 1) }

/-- The state built by `create` in trajectory.js: a zeroed attribute of
`C + 1` slots, `idx = len = 0`, both draw ranges `(0, 0)`. -/
def mkTraj (C : Nat) (d : α) : TrajState α :=
  { slots := List.replicate (C + 1) d, idx := 0, len := 0,
    drawRange1 := (0, 0), drawRange2 := (0, 0) }

/-- A sequence of `appendPosition` calls. -/
def appendAll (C : Nat) (st : TrajState α) (ps : List α) : TrajState α :=
  ps.foldl (appendPosition C) st

/-- Writing a block of values at consecutive slots. -/
def setSeq (buf : List α) (i : Nat) : List α → List α
  | [] => buf
  | p :: ps => setSeq (buf.set i p) (i + 1) ps

theorem setSeq_eq : ∀ (qs : List α) (buf : List α) (i : Nat),
    i + qs.length ≤ buf.length →
    setSeq buf i qs = buf.take i ++ qs ++ buf.drop (i + qs.length) := by
  intro qs
  induction qs with
  | nil =>
    intro buf i h
    rw [setSeq]
    simp only [List.nil_append, List.append_nil, Nat.add_zero]
    exact (List.take_append_drop i buf).symm
  | cons q qs ih =>
    intro buf i h
    rw [List.length_cons] at h
    have hi : i < buf.length := by omega
    rw [setSeq, ih _ (i + 1) (by simp only [List.length_set]; omega)]
    have htk : (buf.set i q).take (i + 1) = buf.take i ++ [q] := by
      rw [List.set_take, List.take_succ, List.getElem?_eq_getElem hi]
      rw [List.set_append_right _ _ (by simp only [List.length_take]; omega)]
      have : i - (buf.take i).length = 0 := by
        simp only [List.length_take]; omega
      rw [this]
      rfl
    have hdp : (buf.set i q).drop (i + 1 + qs.length)
        = buf.drop (i + 1 + qs.length) := by
      rw [List.drop_set, if_pos (by omega)]
    rw [htk, hdp]
    simp only [List.append_assoc, List.singleton_append, List.cons_append,
      List.nil_append, List.length_cons]
    have : i + 1 + qs.length = i + (qs.length + 1) := by omega
    rw [this]

theorem appendAll_fill : ∀ (qs : List α) (C : Nat) (st : TrajState α),
    st.idx = st.len → st.len + qs.length ≤ C →
    (appendAll C st qs).slots = setSeq st.slots st.len qs ∧
    (appendAll C st qs).idx = st.len + qs.length ∧
    (appendAll C st qs).len = st.len + qs.length ∧
    (appendAll C st qs).drawRange2 = st.drawRange2 := by
  intro qs
  induction qs with
  | nil =>
    intro C st hidx _
    exact ⟨rfl, by simp [appendAll, hidx], by simp [appendAll], rfl⟩
  | cons q qs ih =>
    intro C st hidx h
    rw [List.length_cons] at h
    have hstep : appendPosition C st q =
        { slots := st.slots.set st.len q, idx := st.len + 1, len := st.len + 1,
          drawRange1 := (0, st.len + 1), drawRange2 := st.drawRange2 } := by
      simp only [appendPosition, hidx]
      rw [if_neg (show ¬ C < st.len + 1 by omega),
        if_neg (show ¬ C < st.len + 1 by omega),
        if_pos (show st.len < C by omega)]
    have hrec := ih C
      { slots := st.slots.set st.len q, idx := st.len + 1, len := st.len + 1,
        drawRange1 := (0, st.len + 1), drawRange2 := st.drawRange2 }
      rfl (by dsimp only; omega)
    rw [appendAll, List.foldl_cons, hstep]
    rw [appendAll] at hrec
    refine ⟨?_, ?_, ?_, ?_⟩
    · rw [hrec.1, setSeq]
    · rw [hrec.2.1]; dsimp only; simp only [List.length_cons]; omega
    · rw [hrec.2.2.1]; dsimp only; simp only [List.length_cons]; omega
    · exact hrec.2.2.2

theorem appendAll_sat : ∀ (qs : List α) (C : Nat) (st : TrajState α),
    st.len = C → st.idx + qs.length ≤ C →
    (appendAll C st qs).slots = setSeq st.slots st.idx qs ∧
    (appendAll C st qs).idx = st.idx + qs.length ∧
    (appendAll C st qs).len = C ∧
    (qs ≠ [] → (appendAll C st qs).drawRange1 = (0, st.idx + qs.length) ∧
      (appendAll C st qs).drawRange2
        = (st.idx + qs.length, C - (st.idx + qs.length) + 1)) := by
  intro qs
  induction qs with
  | nil =>
    intro C st hlen _
    exact ⟨rfl, rfl, hlen, fun hne => absurd rfl hne⟩
  | cons q qs ih =>
    intro C st hlen h
    rw [List.length_cons] at h
    have hstep : appendPosition C st q =
        { slots := st.slots.set st.idx q, idx := st.idx + 1, len := C,
          drawRange1 := (0, st.idx + 1),
          drawRange2 := (st.idx + 1, C - (st.idx + 1) + 1) } := by
      simp only [appendPosition, hlen]
      rw [if_neg (show ¬ C < st.idx + 1 by omega),
        if_neg (show ¬ C < st.idx + 1 by omega),
        if_neg (show ¬ C < C by omega)]
    have hrec := ih C
      { slots := st.slots.set st.idx q, idx := st.idx + 1, len := C,
        drawRange1 := (0, st.idx + 1),
        drawRange2 := (st.idx + 1, C - (st.idx + 1) + 1) }
      rfl (by dsimp only; omega)
    rw [appendAll, List.foldl_cons, hstep]
    rw [appendAll] at hrec
    refine ⟨?_, ?_, hrec.2.2.1, fun _ => ?_⟩
    · rw [hrec.1, setSeq]
    · rw [hrec.2.1]; dsimp only; simp only [List.length_cons]; omega
    · cases qs with
      | nil =>
        refine ⟨?_, ?_⟩ <;> simp [appendAll]
      | cons r rs =>
        have hne : r :: rs ≠ ([] : List α) := by simp
        refine ⟨?_, ?_⟩
        · rw [(hrec.2.2.2 hne).1]
          dsimp only
          simp only [List.length_cons, Prod.mk.injEq]
          exact ⟨trivial, by omega⟩
        · rw [(hrec.2.2.2 hne).2]
          dsimp only
          simp only [List.length_cons, Prod.mk.injEq]
          omega

theorem appendPosition_wrap (C : Nat) (st : TrajState α) (p : α)
    (hidx : st.idx = C) (hlen : st.len = C) :
    appendPosition C st p =
      { slots := (st.slots.set C p).set 0 p, idx := 1, len := C,
        drawRange1 := (0, 1), drawRange2 := (1, C - 1 + 1) } := by
  simp only [appendPosition, hidx, hlen]
  rw [if_pos (Nat.lt_succ_self C), if_pos (Nat.lt_succ_self C),
    if_neg (Nat.lt_irrefl C)]

/-- C5 — "For every sequence of appends to a capacity-C trajectory ring
buffer: each append writes the position at writeIndex and increments it;
when writeIndex exceeds C it wraps by writing the same position redundantly
at slot 0 and resetting writeIndex to 1; once full (e.g., after C+5
appends), filledCount == C and the two exposed draw segments
[0, writeIndex] and [writeIndex, C - writeIndex + 1] have lengths summing
to C+1, covering exactly C+1 points with no gap, with the oldest
overwritten positions no longer present in either segment."  The final
buffer after `C + 5` appends is
`ps.drop C ++ (ps.drop 5).take (C - 5) ++ [ps[C]]`, which the two ranges
`(0, 5)` and `(5, C - 4)` cover exactly; the first five positions no longer
occur anywhere in it. -/
theorem trajectory_ring {α : Type} (C : Nat) (ps : List α) (d : α)
    (hC : 5 ≤ C) (hlen : ps.length = C + 5) (hnodup : ps.Nodup) :
    (∀ (st : TrajState α) (p : α), st.idx < C →
        (appendPosition C st p).slots = st.slots.set st.idx p ∧
        (appendPosition C st p).idx = st.idx + 1) ∧
    (∀ (st : TrajState α) (p : α), st.idx = C → st.len = C →
        (appendPosition C st p).slots = (st.slots.set C p).set 0 p ∧
        (appendPosition C st p).idx = 1) ∧
    (appendAll C (mkTraj C d) ps).len = C ∧
    (appendAll C (mkTraj C d) ps).idx = 5 ∧
    (appendAll C (mkTraj C d) ps).drawRange1 = (0, 5) ∧
    (appendAll C (mkTraj C d) ps).drawRange2 = (5, C - 5 + 1) ∧
    (appendAll C (mkTraj C d) ps).drawRange1.2
        + (appendAll C (mkTraj C d) ps).drawRange2.2 = C + 1 ∧
    (appendAll C (mkTraj C d) ps).slots
        = ps.drop C ++ (ps.drop 5).take (C - 5) ++ [ps.getD C d] ∧
    ∀ j, j < 5 → ps.getD j d ∉ (appendAll C (mkTraj C d) ps).slots := by
  have hC5 : C < ps.length := by omega
  have hpC : ps.getD C d = ps[C] := by
    rw [List.getD_eq_getElem?_getD, List.getElem?_eq_getElem hC5]
    rfl
  have hlentake : (ps.take C).length = C := by
    rw [List.length_take]; omega
  have ht2len : (ps.drop (C + 1)).length = 4 := by
    rw [List.length_drop]; omega
  have htakeC1 : ps.take (C + 1) = ps.take C ++ [ps.getD C d] := by
    rw [List.take_succ, List.getElem?_eq_getElem hC5, hpC]
    rfl
  have hwrite : ∀ (st : TrajState α) (p : α), st.idx < C →
      (appendPosition C st p).slots = st.slots.set st.idx p ∧
      (appendPosition C st p).idx = st.idx + 1 := by
    intro st p hlt
    simp only [appendPosition]
    rw [if_neg (show ¬ C < st.idx + 1 by omega),
      if_neg (show ¬ C < st.idx + 1 by omega)]
    split <;> exact ⟨rfl, rfl⟩
  have hwrap : ∀ (st : TrajState α) (p : α), st.idx = C → st.len = C →
      (appendPosition C st p).slots = (st.slots.set C p).set 0 p ∧
      (appendPosition C st p).idx = 1 := by
    intro st p h1 h2
    rw [appendPosition_wrap C st p h1 h2]
    exact ⟨rfl, rfl⟩
  have hfill := appendAll_fill (ps.take C) C (mkTraj C d) rfl
    (by simp only [mkTraj]; rw [hlentake]; omega)
  have hAidx : (appendAll C (mkTraj C d) (ps.take C)).idx = C := by
    rw [hfill.2.1]; simp only [mkTraj]; rw [hlentake]; omega
  have hAlen : (appendAll C (mkTraj C d) (ps.take C)).len = C := by
    rw [hfill.2.2.1]; simp only [mkTraj]; rw [hlentake]; omega
  have hAslots : (appendAll C (mkTraj C d) (ps.take C)).slots
      = ps.take C ++ [d] := by
    rw [hfill.1]
    simp only [mkTraj]
    rw [setSeq_eq _ _ _ (by rw [List.length_replicate, hlentake]; omega)]
    simp only [List.take_zero, List.nil_append, Nat.zero_add, hlentake,
      List.drop_replicate]
    rw [show C + 1 - C = 1 from by omega]
    rfl
  have hwrapstep := appendPosition_wrap C (appendAll C (mkTraj C d) (ps.take C))
    (ps.getD C d) hAidx hAlen
  have hsat := appendAll_sat (ps.drop (C + 1)) C
    (appendPosition C (appendAll C (mkTraj C d) (ps.take C)) (ps.getD C d))
    (by rw [hwrapstep]) (by rw [hwrapstep, ht2len]; dsimp only; omega)
  have hne : ps.drop (C + 1) ≠ [] := by
    intro hh
    rw [hh] at ht2len
    simp at ht2len
  have hdecomp : appendAll C (mkTraj C d) ps
      = appendAll C (appendPosition C (appendAll C (mkTraj C d) (ps.take C))
          (ps.getD C d)) (ps.drop (C + 1)) := by
    conv_lhs => rw [show ps = ps.take (C + 1) ++ ps.drop (C + 1) from
      (List.take_append_drop (C + 1) ps).symm]
    rw [appendAll, List.foldl_append, htakeC1, List.foldl_append]
    rfl
  have hlenF : (appendAll C (mkTraj C d) ps).len = C := by
    rw [hdecomp]; exact hsat.2.2.1
  have hidxF : (appendAll C (mkTraj C d) ps).idx = 5 := by
    rw [hdecomp, hsat.2.1, hwrapstep, ht2len]
  have hdr1 : (appendAll C (mkTraj C d) ps).drawRange1 = (0, 5) := by
    rw [hdecomp, (hsat.2.2.2 hne).1, hwrapstep, ht2len]
  have hdr2 : (appendAll C (mkTraj C d) ps).drawRange2 = (5, C - 5 + 1) := by
    rw [hdecomp, (hsat.2.2.2 hne).2, hwrapstep, ht2len]
  have hsetC : ((ps.take C ++ [d]).set C (ps.getD C d))
      = ps.take C ++ [ps.getD C d] := by
    rw [List.set_append_right _ _ (le_of_eq hlentake), hlentake, Nat.sub_self]
    rfl
  have hScons : (ps.take C ++ [ps.getD C d]).set 0 (ps.getD C d)
      = ps.getD C d :: (ps.take C ++ [ps.getD C d]).drop 1 := by
    rw [List.set_eq_take_cons_drop _
      (by simp only [List.length_append, List.length_cons, List.length_nil,
        hlentake]; omega)]
    rfl
  have hSdrop : (ps.take C ++ [ps.getD C d]).drop 5
      = (ps.drop 5).take (C - 5) ++ [ps.getD C d] := by
    rw [List.drop_append_of_le_length (by rw [hlentake]; omega), List.drop_take]
  have hdropC : ps.drop C = ps.getD C d :: ps.drop (C + 1) := by
    rw [List.drop_eq_getElem_cons hC5, hpC]
  have hslotsF : (appendAll C (mkTraj C d) ps).slots
      = ps.drop C ++ (ps.drop 5).take (C - 5) ++ [ps.getD C d] := by
    rw [hdecomp, hsat.1, hwrapstep]
    dsimp only
    rw [hAslots, hsetC, hScons]
    rw [setSeq_eq _ _ _
      (by simp only [List.length_cons, List.length_drop, List.length_append,
        List.length_nil, hlentake, ht2len]; omega)]
    rw [ht2len, show (1 : Nat) + 4 = 5 from rfl]
    rw [List.take_succ_cons, List.take_zero, List.drop_succ_cons,
      List.drop_drop, show (1 : Nat) + 4 = 5 from rfl, hSdrop, hdropC]
    simp only [List.cons_append, List.singleton_append, List.append_assoc,
      List.nil_append]
  refine ⟨hwrite, hwrap, hlenF, hidxF, hdr1, hdr2, ?_, hslotsF, ?_⟩
  · rw [hdr1, hdr2]
    dsimp only
    omega
  · intro j hj
    rw [hslotsF]
    intro hmem
    have hjlen : j < ps.length := by omega
    have hdisj : List.Disjoint (ps.take 5) (ps.drop 5) :=
      List.disjoint_of_nodup_append
        (by rw [List.take_append_drop]; exact hnodup)
    have hmem5 : ps.getD j d ∈ ps.take 5 := by
      refine List.getElem?_mem
        (show (ps.take 5)[j]? = some (ps.getD j d) from ?_)
      rw [List.getElem?_take_of_lt hj, List.getElem?_eq_getElem hjlen,
        List.getD_eq_getElem?_getD, List.getElem?_eq_getElem hjlen]
      rfl
    have hx : ps.getD j d ∈ ps.drop 5 := by
      rcases List.mem_append.mp hmem with h1 | h2
      · rcases List.mem_append.mp h1 with h3 | h4
        · exact List.drop_subset_drop_left ps hC h3
        · exact List.take_subset _ _ h4
      · have he : ps.getD j d = ps.getD C d := List.mem_singleton.mp h2
        rw [he]
        refine List.getElem?_mem
          (show (ps.drop 5)[C - 5]? = some (ps.getD C d) from ?_)
        rw [List.getElem?_drop, show 5 + (C - 5) = C from by omega,
          List.getElem?_eq_getElem hC5, hpC]
    exact hdisj hmem5 hx

/-- Witness for `trajectory_ring`: capacity 5, positions `0..9`; after the
ten appends the buffer is `[5, 6, 7, 8, 9, 5]` (slot 0 duplicates slot 5
across the wrap seam), `len = 5`, `idx = 5`, draw ranges `(0, 5)` and
`(5, 1)`. -/
theorem trajectory_ring_witness :
    (appendAll 5 (mkTraj 5 (0 : Nat)) [0, 1, 2, 3, 4, 5, 6, 7, 8, 9]).len = 5 ∧
    (appendAll 5 (mkTraj 5 (0 : Nat)) [0, 1, 2, 3, 4, 5, 6, 7, 8, 9]).idx = 5 ∧
    (appendAll 5 (mkTraj 5 (0 : Nat))
        [0, 1, 2, 3, 4, 5, 6, 7, 8, 9]).drawRange1 = (0, 5) ∧
    (appendAll 5 (mkTraj 5 (0 : Nat))
        [0, 1, 2, 3, 4, 5, 6, 7, 8, 9]).drawRange2 = (5, 1) ∧
    (appendAll 5 (mkTraj 5 (0 : Nat))
        [0, 1, 2, 3, 4, 5, 6, 7, 8, 9]).slots = [5, 6, 7, 8, 9, 5] := by
  have h := trajectory_ring 5 [0, 1, 2, 3, 4, 5, 6, 7, 8, 9] 0
    (by decide) (by decide) (by decide)
  refine ⟨h.2.2.1, h.2.2.2.1, h.2.2.2.2.1, ?_, ?_⟩
  · rw [h.2.2.2.2.2.1]
  · rw [h.2.2.2.2.2.2.2.1]
    rfl

end Traj

/-!
## Robot kinematics (robot.js)

`updateQ` in robot.js walks the body list; for body `i` it builds a fresh
identity quaternion, overwrites it with `setFromAxisAngle(jointAxis, q[i])`
only when `jointType.toLowerCase() == "r"`, then `premultiply`s the rest
orientation (`spec.quaternion`), giving `rest x joint`; the position starts
at zero, is set to `jointAxis * q[i]` only when the lowered joint type is
`"p"`, and then the rest position is added.  `sin` and `cos` of the half
angle are abstracted as function parameters (they are transcendental);
`jointType` is a single character (`rb.joint.type[0]`).
-/

namespace Robot

structure Quat where
  x : ℚ
  y : ℚ
  z : ℚ
  w : ℚ
deriving DecidableEq

/-- THREE.Quaternion.multiplyQuaternions (Hamilton product `a * b`);
`premultiply(p)` computes `p * this`. -/
def quatMul (a b : Quat) : Quat :=
  ⟨a.x * b.w + a.w * b.x + a.y * b.z - a.z * b.y,
   a.y * b.w + a.w * b.y + a.z * b.x - a.x * b.z,
   a.z * b.w + a.w * b.z + a.x * b.y - a.y * b.x,
   a.w * b.w - a.x * b.x - a.y * b.y - a.z * b.z⟩

/-- `new THREE.Quaternion()`. -/
def quatIdentity : Quat := ⟨0, 0, 0, 1⟩

/-- THREE.Quaternion.setFromAxisAngle: components `axis * sin(angle/2)`
and `cos(angle/2)`, with the half-angle sine and cosine passed in as
abstract functions. -/
def setFromAxisAngle (axis : ℚ × ℚ × ℚ) (angle : ℚ)
    (sinHalf cosHalf : ℚ → ℚ) : Quat :=
  ⟨axis.1 * sinHalf angle, axis.2.1 * sinHalf angle,
   axis.2.2 * sinHalf angle, cosHalf angle⟩

def vadd (a b : ℚ × ℚ × ℚ) : ℚ × ℚ × ℚ :=
  (a.1 + b.1, a.2.1 + b.2.1, a.2.2 + b.2.2)

def vscale (a : ℚ × ℚ × ℚ) (s : ℚ) : ℚ × ℚ × ℚ :=
  (a.1 * s, a.2.1 * s, a.2.2 * s)

/-- ASCII `String.prototype.toLowerCase` on the single joint-type
character. -/
def charLower (c : Char) : Char :=
  if c.isUpper then Char.ofNat (c.toNat + 32) else c

/-- The `body.redisgl` record saved by `create` in robot.js: rest pose in
the parent frame plus the joint descriptor. -/
structure Body where
  quaternion : Quat
  position : ℚ × ℚ × ℚ
  jointType : Char
  jointAxis : ℚ × ℚ × ℚ

/-- Loop body of `updateQ`: the new local pose (orientation, position) of
one body given its joint value. -/
def updateBody (sinHalf cosHalf : ℚ → ℚ) (b : Body) (qi : ℚ) :
    Quat × (ℚ × ℚ × ℚ) :=
  let quat0 := quatIdentity
  let quat1 := if charLower b.jointType = 'r'
    then setFromAxisAngle b.jointAxis qi sinHalf cosHalf else quat0
  let quat := quatMul b.quaternion quat1
  let pos0 : ℚ × ℚ × ℚ := (0, 0, 0)
  let pos1 := if charLower b.jointType = 'p'
    then vscale b.jointAxis qi else pos0
  let pos := vadd pos1 b.position
  (quat, pos)

def defaultBody : Body := ⟨quatIdentity, (0, 0, 0), 'x', (0, 0, 1)⟩

/-- `updateQ` from robot.js: new local poses for all bodies, and the
returned render-request flag (always `true`). -/
def updateQ (sinHalf cosHalf : ℚ → ℚ) (bodies : List Body) (q : List ℚ) :
    List (Quat × (ℚ × ℚ × ℚ)) × Bool :=
  (((List.range bodies.length).map
      (fun i => updateBody sinHalf cosHalf (bodies.getD i defaultBody)
        (q.getD i 0))), true)

theorem quatMul_identity (a : Quat) : quatMul a quatIdentity = a := by
  cases a
  simp [quatMul, quatIdentity]

theorem vadd_zero (p : ℚ × ℚ × ℚ) : vadd (0, 0, 0) p = p := by
  obtain ⟨a, b, c⟩ := p
  simp [vadd]

/-- C6 — "For every joint chain and configuration vector q, the kinematic
updater sets each body i's local orientation to restOrientation composed
with an axis-angle rotation axisAngle(jointAxis, q[i]) when the joint is
revolute and to restOrientation otherwise, and its local translation to
restPosition + jointAxis * q[i] when prismatic and restPosition otherwise;
an unknown joint kind is treated as fixed (q[i] contributes nothing), not
an error." -/
theorem kinematic_update (sinHalf cosHalf : ℚ → ℚ) (bodies : List Body)
    (q : List ℚ) (i : Nat) (hi : i < bodies.length) :
    ((charLower (bodies.getD i defaultBody).jointType = 'r' →
      (updateQ sinHalf cosHalf bodies q).1.getD i (quatIdentity, (0, 0, 0))
        = (quatMul (bodies.getD i defaultBody).quaternion
            (setFromAxisAngle (bodies.getD i defaultBody).jointAxis
              (q.getD i 0) sinHalf cosHalf),
           (bodies.getD i defaultBody).position)) ∧
     (charLower (bodies.getD i defaultBody).jointType = 'p' →
      (updateQ sinHalf cosHalf bodies q).1.getD i (quatIdentity, (0, 0, 0))
        = ((bodies.getD i defaultBody).quaternion,
           vadd (vscale (bodies.getD i defaultBody).jointAxis (q.getD i 0))
             (bodies.getD i defaultBody).position)) ∧
     (charLower (bodies.getD i defaultBody).jointType ≠ 'r' →
      charLower (bodies.getD i defaultBody).jointType ≠ 'p' →
      (updateQ sinHalf cosHalf bodies q).1.getD i (quatIdentity, (0, 0, 0))
        = ((bodies.getD i defaultBody).quaternion,
           (bodies.getD i defaultBody).position))) ∧
    (updateQ sinHalf cosHalf bodies q).2 = true := by
  have hget : (updateQ sinHalf cosHalf bodies q).1.getD i
      (quatIdentity, (0, 0, 0))
      = updateBody sinHalf cosHalf (bodies.getD i defaultBody) (q.getD i 0) := by
    rw [updateQ]
    rw [List.getD_eq_getElem?_getD, List.getElem?_map, List.getElem?_range hi]
    rfl
  refine ⟨⟨?_, ?_, ?_⟩, rfl⟩
  · intro hr
    have hnp : ¬ charLower (bodies.getD i defaultBody).jointType = 'p' := by
      rw [hr]; decide
    rw [hget, updateBody]
    rw [if_pos hr, if_neg hnp, vadd_zero]
  · intro hp
    have hnr : ¬ charLower (bodies.getD i defaultBody).jointType = 'r' := by
      rw [hp]; decide
    rw [hget, updateBody]
    rw [if_neg hnr, if_pos hp, quatMul_identity]
  · intro hnr hnp
    rw [hget, updateBody]
    rw [if_neg hnr, if_neg hnp, quatMul_identity, vadd_zero]

/-- Witness for `kinematic_update`: one revolute body with joint type
character `R` (upper case, lowered to `r`), axis `(0, 0, 1)`, rest pose
identity, `q = [1]`. -/
theorem kinematic_update_witness :
    (0 : Nat) < ([⟨quatIdentity, (0, 0, 0), 'R', (0, 0, 1)⟩] : List Body).length ∧
    ((charLower 'R' = 'r' →
      (updateQ (fun _ => 0) (fun _ => 1)
          [⟨quatIdentity, (0, 0, 0), 'R', (0, 0, 1)⟩] [1]).1.getD 0
          (quatIdentity, (0, 0, 0))
        = (quatMul quatIdentity
            (setFromAxisAngle (0, 0, 1) 1 (fun _ => 0) (fun _ => 1)),
           (0, 0, 0))) ∧
     (charLower 'R' = 'p' →
      (updateQ (fun _ => 0) (fun _ => 1)
          [⟨quatIdentity, (0, 0, 0), 'R', (0, 0, 1)⟩] [1]).1.getD 0
          (quatIdentity, (0, 0, 0))
        = (quatIdentity, vadd (vscale (0, 0, 1) 1) (0, 0, 0))) ∧
     (charLower 'R' ≠ 'r' → charLower 'R' ≠ 'p' →
      (updateQ (fun _ => 0) (fun _ => 1)
          [⟨quatIdentity, (0, 0, 0), 'R', (0, 0, 1)⟩] [1]).1.getD 0
          (quatIdentity, (0, 0, 0))
        = (quatIdentity, (0, 0, 0)))) ∧
    (updateQ (fun _ => 0) (fun _ => 1)
        [⟨quatIdentity, (0, 0, 0), 'R', (0, 0, 1)⟩] [1]).2 = true := by
  refine ⟨by decide, ?_⟩
  exact kinematic_update (fun _ => 0) (fun _ => 1)
    [⟨quatIdentity, (0, 0, 0), 'R', (0, 0, 1)⟩] [1] 0 (by decide)

end Robot

